import Mathlib

/-!
# dlib `structural_track_association_trainer`

A shallow embedding of `src/dlib/svm/structural_track_association_trainer.h`.

* `detection_type` is the type parameter `D`, `detection_id_type` the type
  parameter `L` (compared with decidable equality), `track_type` the type
  parameter `T`.  The three operations of `track_type` the file uses
  (default construction, `update_track`, `propagate_track`) are the fields of
  `track_ops`; every definition is generic in them, as the C++ template is.
* `std::vector` is `List`; `push_back` appends at the end.
* `std::map<detection_id_type, unsigned long>` is an association list with
  `map_find` (`find` / `count` / reading `operator[]`) and `map_assign`
  (writing `operator[]`).  The code never iterates over the map, so the order
  in which the entries are stored is not observable.
* `unsigned long` indices are `Nat` and `long` labels are `Int`: every index
  is a position in a `std::vector`, hence below `max_size()`, so neither
  `tracks.size()-1` after a `push_back` nor the conversion to `long` wraps.
* An indexed access `v[i]` of a `std::vector` has a meaning only when `i` is a
  position of `v`.  The two loops of `add_dets_to_tracks` index `tracks` and
  `updated_track` with values that no loop guard bounds, so each such access
  is checked: the loops, `add_dets_to_tracks` and every function that calls it
  return an `Option`, which is `none` when an index has left its vector; the
  C++ call then has no result.  The one access whose index can leave its
  vector is `updated_track[track_idx] = true`, when a label that is new in a
  time step occurs again in the same step: `track_idx` is then the index of
  the track just appended, while `updated_track` keeps the size the track list
  had when the step began.  The other indexed accesses of the file
  (`assoc[i]`, `dets[i]`, `det_history[i]`, `samples[i][j]`, `updated_track[i]`)
  stand under a loop guard or a size check that bounds the index.
* The integer types are those of the LP64 data model: `unsigned` has 32 bits,
  `unsigned long` and `std::size_t` have 64.  The one `unsigned` in the file is
  the counter `j` of the inner loop of `find_num_dims`, incremented modulo
  `2 ^ 32`.
* A `double` is one of the values of `double`; a finite one is given by the
  rational number it is.  The code stores such values and compares them with
  `0`; the two literals it uses are `100`, which is a `double`, and `0.1`,
  which stands for the `double` nearest to one tenth.
* A call that can end without a result returns an `outcome`.  The macros
  `DLIB_ASSERT` and `DLIB_CASSERT`, the type `oca` and the predicate
  `is_track_association_problem` are used by the file and defined elsewhere
  in dlib: the macros are modelled from the specification, the type and the
  predicate are parameters.
* `train` is followed up to its call of the external
  `structural_assignment_trainer`; its result is what it hands to that
  trainer and to the feature extractor.
-/

namespace dlib

/-- The operations of `track_type` used by the trainer. -/
structure track_ops (D T : Type) where
  /-- The default-constructed track, `track_type new_track;`. -/
  new_track : T
  /-- The member `update_track(det)`, as a function of the track's state. -/
  update_track : T → D → T
  /-- The member `propagate_track()`, as a function of the track's state. -/
  propagate_track : T → T

/-- One operation applied to a track. -/
inductive track_event (D : Type) where
  | update (det : D)
  | propagate
  deriving DecidableEq, Repr

/-- The track type that records the operations applied to it, oldest first. -/
def trace_ops (D : Type) : track_ops D (List (track_event D)) where
  new_track := []
  update_track := fun t det => t ++ [track_event.update det]
  propagate_track := fun t => t ++ [track_event.propagate]

/-- The lookup `track_labels.find(key)`: `some v` when `key` is present with value `v`
(which is also what `count(key)` and a read of `track_labels[key]` report). -/
def map_find {L : Type} [DecidableEq L] : List (L × Nat) → L → Option Nat
  | [], _ => none
  | (k, v) :: rest, key => if k = key then some v else map_find rest key

/-- The assignment `track_labels[key] = val`: overwrite the entry of `key`, or add one. -/
def map_assign {L : Type} [DecidableEq L] : List (L × Nat) → L → Nat → List (L × Nat)
  | [], key, val => [(key, val)]
  | (k, v) :: rest, key, val =>
      if k = key then (k, val) :: rest else (k, v) :: map_assign rest key val

/-- The function `impl::get_unlabeled_dets`: push each `dets[i].first` onto `temp`. -/
def get_unlabeled_dets {D L : Type} (dets : List (D × L)) : List D :=
  dets.foldl (fun temp det => temp ++ [det.1]) []

/-- The loop of `get_association_labels` from index `i` on, over the detections not yet
visited: `assoc[i] = j->second` when the label of `dets[i]` is found in the map. -/
def get_association_labels_loop {D L : Type} [DecidableEq L] (track_labels : List (L × Nat)) :
    List (D × L) → Nat → List Int → List Int
  | [], _, assoc => assoc
  | det :: rest, i, assoc =>
      match map_find track_labels det.2 with
      | some j =>
          get_association_labels_loop track_labels rest (i + 1) (assoc.set i (Int.ofNat j))
      | none => get_association_labels_loop track_labels rest (i + 1) assoc

/-- The function `get_association_labels`: `assoc` starts as `dets.size()` copies of `-1`. -/
def get_association_labels {D L : Type} [DecidableEq L] (dets : List (D × L))
    (track_labels : List (L × Nat)) : List Int :=
  get_association_labels_loop track_labels dets 0 (List.replicate dets.length (-1))

/-- The track list and the label map that `convert_dets_to_association_sets` keeps
while it walks one history. -/
structure container (T L : Type) where
  tracks : List T
  track_labels : List (L × Nat)
  deriving DecidableEq, Repr

/-- The state at the declaration of `tracks` and `track_labels`: both empty. -/
def container.empty {T L : Type} : container T L := ⟨[], []⟩

/-- The first loop of `add_dets_to_tracks` over the detections not yet visited. The state
is `tracks`, `track_labels` and `updated_track`. For a label found in the map the loop
indexes `tracks[track_idx]` and `updated_track[track_idx]`; there is no result when
`track_idx` is not a position of both. -/
def assign_dets_loop {D T L : Type} [DecidableEq L] (ops : track_ops D T) :
    List (D × L) → List T × List (L × Nat) × List Bool →
      Option (List T × List (L × Nat) × List Bool)
  | [], st => some st
  | det :: rest, (tracks, track_labels, updated_track) =>
      match map_find track_labels det.2 with
      | some track_idx =>
          if track_idx < tracks.length ∧ track_idx < updated_track.length then
            assign_dets_loop ops rest
              (tracks.modify (fun t => ops.update_track t det.1) track_idx,
               track_labels,
               updated_track.set track_idx true)
          else none
      | none =>
          let tracks1 := tracks ++ [ops.update_track ops.new_track det.1]
          assign_dets_loop ops rest
            (tracks1, map_assign track_labels det.2 (tracks1.length - 1), updated_track)

/-- The second loop of `add_dets_to_tracks` from index `i` on, over the flags of
`updated_track` not yet visited: propagate the tracks that got no detection. There is no
result when `tracks[i]` is indexed with `i` not a position of `tracks`. -/
def propagate_loop {D T : Type} (ops : track_ops D T) :
    List Bool → Nat → List T → Option (List T)
  | [], _, tracks => some tracks
  | flag :: rest, i, tracks =>
      if flag = false then
        if i < tracks.length then
          propagate_loop ops rest (i + 1) (tracks.modify ops.propagate_track i)
        else none
      else propagate_loop ops rest (i + 1) tracks

/-- The function `add_dets_to_tracks`, returning the new `tracks` and `track_labels`;
`none` when one of its loops has no result. -/
def add_dets_to_tracks {D T L : Type} [DecidableEq L] (ops : track_ops D T)
    (c : container T L) (dets : List (D × L)) : Option (container T L) :=
  match assign_dets_loop ops dets
      (c.tracks, c.track_labels, List.replicate c.tracks.length false) with
  | none => none
  | some st =>
      match propagate_loop ops st.2.2 0 st.1 with
      | none => none
      | some tracks => some ⟨tracks, st.2.1⟩

/-- The loop `for (i = 1; i < det_history.size(); ++i)` of
`convert_dets_to_association_sets`, over the time steps not yet visited. -/
def convert_loop {D T L : Type} [DecidableEq L] (ops : track_ops D T) :
    List (List (D × L)) → container T L → List (List D × List T) × List (List Int) →
      Option (List (List D × List T) × List (List Int))
  | [], _, out => some out
  | dets :: rest, c, (data, labels) =>
      match add_dets_to_tracks ops c dets with
      | none => none
      | some c1 =>
          convert_loop ops rest c1
            (data ++ [(get_unlabeled_dets dets, c.tracks)],
             labels ++ [get_association_labels dets c.track_labels])

/-- The function `convert_dets_to_association_sets`: the new values of the output
parameters `data` and `labels`; `none` when a call of `add_dets_to_tracks` has no
result. -/
def convert_dets_to_association_sets {D T L : Type} [DecidableEq L] (ops : track_ops D T)
    (det_history : List (List (D × L))) (data : List (List D × List T))
    (labels : List (List Int)) : Option (List (List D × List T) × List (List Int)) :=
  match det_history with
  | [] => some (data, labels)
  | first :: rest =>
      match add_dets_to_tracks ops container.empty first with
      | none => none
      | some c => convert_loop ops rest c (data, labels)

/-- The loop of `train` that fills `assignment_samples` and `labels`, over the histories
not yet visited. -/
def train_loop {D T L : Type} [DecidableEq L] (ops : track_ops D T) :
    List (List (List (D × L))) → List (List D × List T) × List (List Int) →
      Option (List (List D × List T) × List (List Int))
  | [], out => some out
  | sample :: rest, (assignment_samples, labels) =>
      match convert_dets_to_association_sets ops sample assignment_samples labels with
      | none => none
      | some out => train_loop ops rest out

/-- The pair `(assignment_samples, labels)` that `train` hands to the external
`structural_assignment_trainer`: both start empty and are filled by the loop. -/
def train_assignment_sets {D T L : Type} [DecidableEq L] (ops : track_ops D T)
    (samples : List (List (List (D × L)))) :
    Option (List (List D × List T) × List (List Int)) :=
  train_loop ops samples ([], [])

/-! ## The indices used by the indexed accesses -/

/-- The values that `track_idx` takes in the first loop of `add_dets_to_tracks`, in
order, over the detections not yet visited: one for each detection whose label is found in
the label map as it stands when the detection is visited. These are the indices used in
`tracks[track_idx].update_track(...)` and `updated_track[track_idx] = true`. The state
moves on by one iteration of the loop; the list ends with the first index that is not a
position of its vector, since the loop has no state after it. -/
def touched_indices {D T L : Type} [DecidableEq L] (ops : track_ops D T) :
    List (D × L) → List T × List (L × Nat) × List Bool → List Nat
  | [], _ => []
  | det :: rest, st =>
      (match map_find st.2.1 det.2 with
        | some track_idx => [track_idx]
        | none => [])
      ++ (match assign_dets_loop ops [det] st with
          | some st1 => touched_indices ops rest st1
          | none => [])

/-- The indices that one call of `add_dets_to_tracks` marks as touched, in order. -/
def add_dets_touched {D T L : Type} [DecidableEq L] (ops : track_ops D T)
    (c : container T L) (dets : List (D × L)) : List Nat :=
  touched_indices ops dets (c.tracks, c.track_labels, List.replicate c.tracks.length false)

/-- The indices `i` of the second loop of `add_dets_to_tracks`, which reads
`updated_track[i]` and may call `tracks[i].propagate_track()`: `0` up to the size of
`updated_track`. There is none when the first loop has no result. -/
def propagate_indices {D T L : Type} [DecidableEq L] (ops : track_ops D T)
    (c : container T L) (dets : List (D × L)) : List Nat :=
  match assign_dets_loop ops dets
      (c.tracks, c.track_labels, List.replicate c.tracks.length false) with
  | some st => List.range st.2.2.length
  | none => []

/-- The track list that the second loop of `add_dets_to_tracks` indexes: the one the first
loop leaves (no track when the first loop has no result). -/
def tracks_after_first_loop {D T L : Type} [DecidableEq L] (ops : track_ops D T)
    (c : container T L) (dets : List (D × L)) : List T :=
  match assign_dets_loop ops dets
      (c.tracks, c.track_labels, List.replicate c.tracks.length false) with
  | some st => st.1
  | none => []

/-- The indices at which `convert_dets_to_association_sets` reads `det_history`: none when
its size is below 1, otherwise `det_history[0]` and then `det_history[i]` for `i` from 1
while `i < det_history.size()`. -/
def det_history_reads {α : Type} (det_history : List α) : List Nat :=
  if det_history.length < 1 then []
  else 0 :: (List.range (det_history.length - 1)).map (fun i => i + 1)

/-! ## The trainer object -/

/-- A value of the C++ type `double`: a finite number, given as the rational number it
is, an infinity, or NaN. The code only stores such values and compares them with `0`. -/
inductive double where
  | finite (value : ℚ)
  | pos_inf
  | neg_inf
  | nan
  deriving DecidableEq

/-- The comparison `x > 0` on `double`, false for NaN. -/
def double.gt_zero : double → Bool
  | double.finite value => decide (0 < value)
  | double.pos_inf => true
  | double.neg_inf => false
  | double.nan => false

/-- The comparison `x <= 0` on `double`, false for NaN. -/
def double.le_zero : double → Bool
  | double.finite value => decide (value ≤ 0)
  | double.pos_inf => false
  | double.neg_inf => true
  | double.nan => false

/-- How a call ends: it returns a value, it is ended by a failed assertion that is
reported to the caller, or it never returns. Of the text that a failed assertion prints,
`fatal` keeps the line that names the broken requirement. -/
inductive outcome (α : Type) where
  | returns (value : α)
  | fatal (message : String)
  | hangs
  deriving DecidableEq

/-- Sequencing: run the rest of the function only when the first part has returned. -/
def outcome.and_then {α β : Type} : outcome α → (α → outcome β) → outcome β
  | outcome.returns value, rest => rest value
  | outcome.fatal message, _ => outcome.fatal message
  | outcome.hangs, _ => outcome.hangs

/-- Modelled from the spec: the macro `DLIB_ASSERT` of dlib's assertion header, which the
sources at hand use but do not define. The spec has a broken requires clause "reported
immediately at the setter, not deferred", "detected eagerly at the point of violation,
surfaced synchronously to the caller": the check passes when the condition holds and ends
the call with the failure otherwise. This is the macro of a build in which the check is
compiled in. -/
def DLIB_ASSERT (condition : Bool) (message : String) : outcome Unit :=
  if condition then outcome.returns () else outcome.fatal message

/-- Modelled from the spec: the macro `DLIB_CASSERT` of dlib's assertion header, which the
sources at hand use but do not define. The spec calls the failed check in `find_num_dims`
a "fatal configuration error (no recovery)" that "must abort the training call with a clear
diagnostic": the check passes when the condition holds and ends the call with the failure
otherwise. -/
def DLIB_CASSERT (condition : Bool) (message : String) : outcome Unit :=
  if condition then outcome.returns () else outcome.fatal message

/-- The data members of `structural_track_association_trainer`; `O` is the type `oca` of
the solver. -/
structure structural_track_association_trainer (O : Type) where
  C : double
  solver : O
  eps : double
  verbose : Bool
  num_threads : Nat
  max_cache_size : Nat
  learn_nonnegative_weights : Bool

/-- The value of the literal `0.1`: one tenth is not a `double`, and the literal stands for
the `double` nearest to it, `0x1.999999999999ap-4`, which is `7205759403792794 / 2 ^ 56`. -/
def double_0_1 : ℚ := 3602879701896397 / 36028797018963968

/-- The member function `set_defaults`. The literal `100` is the `double` 100. -/
def set_defaults {O : Type} (self : structural_track_association_trainer O) :
    structural_track_association_trainer O :=
  { self with
    C := double.finite 100
    verbose := false
    eps := double.finite double_0_1
    num_threads := 2
    max_cache_size := 5
    learn_nonnegative_weights := false }

/-- The constructor: its body calls `set_defaults` on the object whose members have just
been default-initialised (`raw`: the solver default-constructed, the numbers and flags
whatever they happen to be). -/
def structural_track_association_trainer.construct {O : Type}
    (raw : structural_track_association_trainer O) : structural_track_association_trainer O :=
  set_defaults raw

/-- The member function `set_num_threads`. -/
def set_num_threads {O : Type} (self : structural_track_association_trainer O) (num : Nat) :
    structural_track_association_trainer O :=
  { self with num_threads := num }

/-- The member function `get_num_threads`. -/
def get_num_threads {O : Type} (self : structural_track_association_trainer O) : Nat :=
  self.num_threads

/-- The member function `set_epsilon`: the new state of the object and how the call ends. -/
def set_epsilon {O : Type} (self : structural_track_association_trainer O) (eps_ : double) :
    outcome Unit × structural_track_association_trainer O :=
  match DLIB_ASSERT eps_.gt_zero "eps_ must be greater than 0" with
  | outcome.returns _ => (outcome.returns (), { self with eps := eps_ })
  | failure => (failure, self)

/-- The member function `get_epsilon`. -/
def get_epsilon {O : Type} (self : structural_track_association_trainer O) : double :=
  self.eps

/-- The member function `set_max_cache_size`. -/
def set_max_cache_size {O : Type} (self : structural_track_association_trainer O)
    (max_size : Nat) : structural_track_association_trainer O :=
  { self with max_cache_size := max_size }

/-- The member function `get_max_cache_size`. -/
def get_max_cache_size {O : Type} (self : structural_track_association_trainer O) : Nat :=
  self.max_cache_size

/-- The member function `be_verbose`. -/
def be_verbose {O : Type} (self : structural_track_association_trainer O) :
    structural_track_association_trainer O :=
  { self with verbose := true }

/-- The member function `be_quiet`. -/
def be_quiet {O : Type} (self : structural_track_association_trainer O) :
    structural_track_association_trainer O :=
  { self with verbose := false }

/-- The member function `set_oca`. -/
def set_oca {O : Type} (self : structural_track_association_trainer O) (item : O) :
    structural_track_association_trainer O :=
  { self with solver := item }

/-- The member function `get_oca`. -/
def get_oca {O : Type} (self : structural_track_association_trainer O) : O :=
  self.solver

/-- The member function `set_c`: the new state of the object and how the call ends. -/
def set_c {O : Type} (self : structural_track_association_trainer O) (C_ : double) :
    outcome Unit × structural_track_association_trainer O :=
  match DLIB_ASSERT C_.gt_zero "C_ must be greater than 0" with
  | outcome.returns _ => (outcome.returns (), { self with C := C_ })
  | failure => (failure, self)

/-- The member function `get_c`. -/
def get_c {O : Type} (self : structural_track_association_trainer O) : double :=
  self.C

/-- The member function `learns_nonnegative_weights`. -/
def learns_nonnegative_weights {O : Type} (self : structural_track_association_trainer O) :
    Bool :=
  self.learn_nonnegative_weights

/-- The member function `set_learns_nonnegative_weights`. -/
def set_learns_nonnegative_weights {O : Type} (self : structural_track_association_trainer O)
    (value : Bool) : structural_track_association_trainer O :=
  { self with learn_nonnegative_weights := value }

/-- The inner loop `for (unsigned j = 0; j < samples[i].size(); ++j)` of `find_num_dims`
over one history, from the counter value `j` on: `returns (some n)` when the function
returns `n` from inside the loop, `returns none` when the loop ends. The counter is an
`unsigned`, 32 bits wide, compared with a 64-bit size, so `++j` is `(j + 1) % 2 ^ 32`.
The first argument bounds the number of iterations: the counter is the whole state of the
loop and has `2 ^ 32` values, so a run of `2 ^ 32` iterations that has not left the loop is
back at a counter value it had before and goes on for ever. -/
def find_num_dims_loop {D T L F : Type} (ops : track_ops D T) (feats : T → D → List F)
    (history : List (List (D × L))) : Nat → Nat → outcome (Option Nat)
  | 0, _ => outcome.hangs
  | fuel + 1, j =>
      if j < history.length then
        match history.getD j [] with
        | det :: _ => outcome.returns (some (feats ops.new_track det.1).length)
        | [] => find_num_dims_loop ops feats history fuel ((j + 1) % 2 ^ 32)
      else
        outcome.returns none

/-- The message of the check `DLIB_CASSERT(false, ...)` that ends `find_num_dims`. -/
def no_detections_message : String :=
  "No detection objects were given in the call to "
    ++ "dlib::structural_track_association_trainer::train()"

/-- The function `find_num_dims`; `feats` is `get_similarity_features` of the track type,
as the function from a track and a detection to the feature vector it writes. The check
after the loops always fails, so control never passes it; the function has no statement
after it. -/
def find_num_dims {D T L F : Type} (ops : track_ops D T) (feats : T → D → List F) :
    List (List (List (D × L))) → outcome Nat
  | [] =>
      (DLIB_CASSERT false no_detections_message).and_then (fun _ => outcome.hangs)
  | history :: rest =>
      (find_num_dims_loop ops feats history (2 ^ 32) 0).and_then (fun found =>
        match found with
        | some num_dims => outcome.returns num_dims
        | none => find_num_dims ops feats rest)

/-- What `train` hands to the external components: the two arguments of the constructor of
`feature_extractor_track_association`, whether `be_verbose` is called on the
`structural_assignment_trainer`, the five values given to its setters, and the two
arguments of its `train`. The feature extractor is constructed and the setters are called
before the loop that fills the two arguments; `training_set` is `none` when that loop has
no result, and the external `train` is then not reached. -/
structure trainer_call (D T O : Type) where
  num_dims : Nat
  num_nonnegative : Nat
  verbose : Bool
  C : double
  eps : double
  max_cache_size : Nat
  num_threads : Nat
  solver : O
  training_set : Option (List (List D × List T) × List (List Int))

/-- The member function `train` on a collection of track histories, up to the call of
the external trainer. `is_track_association_problem` is the predicate of that name, which
the sources use but do not define. -/
def train {D T L F O : Type} [DecidableEq L] (ops : track_ops D T) (feats : T → D → List F)
    (is_track_association_problem : List (List (List (D × L))) → Bool)
    (self : structural_track_association_trainer O) (samples : List (List (List (D × L)))) :
    outcome (trainer_call D T O) :=
  (DLIB_ASSERT (is_track_association_problem samples)
      "invalid inputs were given to this function").and_then (fun _ =>
    (find_num_dims ops feats samples).and_then (fun num_dims =>
      outcome.returns
        { num_dims := num_dims
          num_nonnegative := if self.learn_nonnegative_weights then num_dims else 0
          verbose := self.verbose
          C := self.C
          eps := self.eps
          max_cache_size := self.max_cache_size
          num_threads := self.num_threads
          solver := self.solver
          training_set := train_assignment_sets ops samples }))

/-- The member function `train` on a single track history. -/
def train_one {D T L F O : Type} [DecidableEq L] (ops : track_ops D T)
    (feats : T → D → List F)
    (is_track_association_problem : List (List (List (D × L))) → Bool)
    (self : structural_track_association_trainer O) (sample : List (List (D × L))) :
    outcome (trainer_call D T O) :=
  train ops feats is_track_association_problem self [sample]

/-! ## Notions used to state the properties -/

/-- The container after `add_dets_to_tracks` has processed the given time steps in order;
`none` when one of the calls has no result. -/
def run_steps {D T L : Type} [DecidableEq L] (ops : track_ops D T) :
    List (List (D × L)) → container T L → Option (container T L)
  | [], c => some c
  | dets :: rest, c =>
      match add_dets_to_tracks ops c dets with
      | none => none
      | some c1 => run_steps ops rest c1

/-- The containers reachable from the empty one by calls of `add_dets_to_tracks`: a call
leads from a container to the container it returns. -/
inductive reachable {D T L : Type} [DecidableEq L] (ops : track_ops D T) :
    container T L → Prop
  | empty : reachable ops container.empty
  | step (c c1 : container T L) (dets : List (D × L)) :
      reachable ops c → add_dets_to_tracks ops c dets = some c1 → reachable ops c1

/-- The identity labels carried by the detections of the given time steps, in order. -/
def labels_of {D L : Type} (steps : List (List (D × L))) : List L :=
  steps.flatten.map Prod.snd

/-- The distinct elements of a list, in the order of their first appearance. -/
def distinct_labels {L : Type} [DecidableEq L] : List L → List L
  | [] => []
  | x :: xs => x :: (distinct_labels xs).filter (fun y => decide (y ≠ x))

/-- The keys of a label map, in stored order. -/
def map_keys {L : Type} (track_labels : List (L × Nat)) : List L :=
  track_labels.map Prod.fst

/-- The label map that sends the `j`-th element of the list to `off + j`. -/
def number_from {L : Type} : Nat → List L → List (L × Nat)
  | _, [] => []
  | off, k :: ks => (k, off) :: number_from (off + 1) ks

/-- The correspondence label of one detection against a label map. -/
def label_against {D L : Type} [DecidableEq L] (track_labels : List (L × Nat))
    (det : D × L) : Int :=
  match map_find track_labels det.2 with
  | some j => Int.ofNat j
  | none => -1

/-- The labels of `xs` that are not in `ks`, each once, in order of first appearance. -/
def new_labels {L : Type} [DecidableEq L] (ks xs : List L) : List L :=
  (distinct_labels xs).filter (fun y => decide (y ∉ ks))

/-- The invariant of the container: the label map numbers its keys `0, 1, 2, ...` in the
order they were added, no key occurs twice, and there is one track per key. -/
def container.wf {T L : Type} (c : container T L) : Prop :=
  c.track_labels = number_from 0 (map_keys c.track_labels)
    ∧ (map_keys c.track_labels).Nodup
    ∧ c.tracks.length = (map_keys c.track_labels).length

/-- A label vector fits an assignment problem: it has one entry per detection, and each
entry is `-1` or an index into the problem's track list. -/
def labels_fit {D T : Type} (problem : List D × List T) (lv : List Int) : Prop :=
  lv.length = problem.1.length
    ∧ ∀ v ∈ lv, v = -1 ∨ (0 ≤ v ∧ v < (problem.2.length : Int))

/-- No identity label occurs more than once within the time step in which it first appears:
in every time step `t` of the history, the labels that occur in no earlier step are
pairwise distinct. A label that occurred in an earlier step may occur any number of
times. -/
def fresh_labels_distinct {D L : Type} [DecidableEq L] (H : List (List (D × L))) : Prop :=
  ∀ t : Nat, t < H.length →
    (((H.getD t []).map Prod.snd).filter
      (fun l => decide (l ∉ labels_of (H.take t)))).Nodup

instance fresh_labels_distinct_decidable {D L : Type} [DecidableEq L]
    (H : List (List (D × L))) : Decidable (fresh_labels_distinct H) := by
  unfold fresh_labels_distinct
  infer_instance

/-- The outputs that `convert_dets_to_association_sets` produces for each history on its
own, starting from empty output lists, in history order; `none` when it has no result for
one of the histories. -/
def convert_each {D T L : Type} [DecidableEq L] (ops : track_ops D T) :
    List (List (List (D × L))) → Option (List (List (List D × List T) × List (List Int)))
  | [] => some []
  | sample :: rest =>
      match convert_dets_to_association_sets ops sample [] [] with
      | none => none
      | some out =>
          match convert_each ops rest with
          | none => none
          | some outs => some (out :: outs)

/-- A history of three time steps over natural-number payloads and labels: label `5`
appears at steps 0 and 1, label `6` at steps 0 and 1, labels `8` and `7` once. -/
def example_history : List (List (Nat × Nat)) :=
  [[(0, 5), (1, 6)], [(2, 5), (4, 8), (5, 6)], [(3, 7)]]

/-- The container that `add_dets_to_tracks` returns from the empty one on the time step
`[(0, 5), (1, 6)]`, on the recording track type. -/
def example_container : container (List (track_event Nat)) Nat :=
  ⟨[[track_event.update 0], [track_event.update 1]], [(5, 0), (6, 1)]⟩

/-- A time step in which labels `7` and `8` are new and label `5`, already known, occurs
twice. -/
def example_step : List (Nat × Nat) :=
  [(2, 7), (3, 5), (4, 5), (5, 8)]

/-- The container that `add_dets_to_tracks` returns from `example_container` on
`example_step`. -/
def example_container_next : container (List (track_event Nat)) Nat :=
  ⟨[[track_event.update 0, track_event.update 3, track_event.update 4],
    [track_event.update 1, track_event.propagate],
    [track_event.update 2],
    [track_event.update 5]],
   [(5, 0), (6, 1), (7, 2), (8, 3)]⟩

/-- A history of three time steps in which no label occurs twice. -/
def example_history_fresh : List (List (Nat × Nat)) :=
  [[(0, 1), (1, 2)], [(2, 3)], [(3, 4), (4, 5)]]

/-- The payloads of the detections of `dets` that carry the identity label `key`, in
arrival order. -/
def payloads {D L : Type} [DecidableEq L] (key : L) (dets : List (D × L)) : List D :=
  (dets.filter (fun det => decide (det.2 = key))).map Prod.fst

/-- The labels of a time step suit the first loop of `add_dets_to_tracks` when the label
map numbers the keys `ks` and `updated_track` has `n0` flags: each label that is a key has
an index below `n0`, and the labels that are not keys are pairwise distinct. -/
def first_loop_ok {L : Type} [DecidableEq L] (ks : List L) (n0 : Nat) (labels : List L) :
    Prop :=
  (∀ l ∈ labels, l ∈ ks → ks.indexOf l < n0)
    ∧ (labels.filter (fun l => decide (l ∉ ks))).Nodup

/-! ## Helper lemmas -/

theorem foldl_push_fst {D L : Type} (dets : List (D × L)) (acc : List D) :
    dets.foldl (fun temp det => temp ++ [det.1]) acc = acc ++ dets.map Prod.fst := by
  induction dets generalizing acc with
  | nil => simp
  | cons det rest ih => simp [ih]

theorem get_unlabeled_dets_eq {D L : Type} (dets : List (D × L)) :
    get_unlabeled_dets dets = dets.map Prod.fst := by
  simp [get_unlabeled_dets, foldl_push_fst]

theorem get_association_labels_loop_eq {D L : Type} [DecidableEq L]
    (track_labels : List (L × Nat)) (rest : List (D × L)) (pre : List Int) :
    get_association_labels_loop track_labels rest pre.length
        (pre ++ List.replicate rest.length (-1))
      = pre ++ rest.map (label_against track_labels) := by
  induction rest generalizing pre with
  | nil => simp [get_association_labels_loop]
  | cons det rest ih =>
    have h1 := ih (pre ++ [label_against track_labels det])
    have h2 := ih (pre ++ [-1])
    simp only [List.length_append, List.length_singleton, List.append_assoc,
      List.singleton_append] at h1 h2
    cases hf : map_find track_labels det.2 with
    | none =>
      simp only [get_association_labels_loop, hf, List.length_cons, List.replicate_succ,
        List.map_cons, label_against]
      simpa [label_against, hf] using h2
    | some j =>
      simp only [get_association_labels_loop, hf, List.length_cons, List.replicate_succ,
        List.map_cons, label_against]
      have : (pre ++ (-1 : Int) :: List.replicate rest.length (-1)).set pre.length (Int.ofNat j)
          = pre ++ Int.ofNat j :: List.replicate rest.length (-1) := by
        simp [List.set_append_right]
      rw [this]
      simpa [label_against, hf] using h1

theorem get_association_labels_eq {D L : Type} [DecidableEq L] (dets : List (D × L))
    (track_labels : List (L × Nat)) :
    get_association_labels dets track_labels = dets.map (label_against track_labels) := by
  have h := get_association_labels_loop_eq track_labels dets []
  simpa [get_association_labels] using h

theorem map_keys_number_from {L : Type} (off : Nat) (ks : List L) :
    map_keys (number_from off ks) = ks := by
  induction ks generalizing off with
  | nil => rfl
  | cons k ks ih => simp [number_from, map_keys] at ih ⊢; exact ih _

theorem length_number_from {L : Type} (off : Nat) (ks : List L) :
    (number_from off ks).length = ks.length := by
  induction ks generalizing off with
  | nil => rfl
  | cons k ks ih => simp [number_from, ih]

theorem number_from_append {L : Type} (off : Nat) (a b : List L) :
    number_from off (a ++ b) = number_from off a ++ number_from (off + a.length) b := by
  induction a generalizing off with
  | nil => simp [number_from]
  | cons k ks ih => simp [number_from, ih, Nat.add_assoc, Nat.add_comm 1]

theorem map_find_number_from {L : Type} [DecidableEq L] (off : Nat) (ks : List L) (key : L) :
    map_find (number_from off ks) key
      = if key ∈ ks then some (off + ks.indexOf key) else none := by
  induction ks generalizing off with
  | nil => simp [number_from, map_find]
  | cons k ks ih =>
    by_cases h : k = key
    · subst h; simp [number_from, map_find]
    · have h' : key ≠ k := fun e => h e.symm
      simp only [number_from, map_find, h, if_false, ih, List.mem_cons, h', false_or,
        List.indexOf_cons_ne _ h]
      split <;> simp [Nat.add_assoc, Nat.add_comm 1]

theorem map_assign_number_from {L : Type} [DecidableEq L] (off : Nat) (ks : List L) (key : L)
    (val : Nat) (h : key ∉ ks) :
    map_assign (number_from off ks) key val = number_from off ks ++ [(key, val)] := by
  induction ks generalizing off with
  | nil => simp [number_from, map_assign]
  | cons k ks ih =>
    have hk : k ≠ key := fun e => h (by simp [e])
    have hks : key ∉ ks := fun e => h (by simp [e])
    simp [number_from, map_assign, hk, ih _ hks]

theorem mem_distinct_labels {L : Type} [DecidableEq L] (xs : List L) (x : L) :
    x ∈ distinct_labels xs ↔ x ∈ xs := by
  induction xs with
  | nil => simp [distinct_labels]
  | cons y ys ih =>
    simp only [distinct_labels, List.mem_cons, List.mem_filter, ih, decide_eq_true_eq]
    by_cases h : x = y <;> simp [h]

theorem nodup_distinct_labels {L : Type} [DecidableEq L] (xs : List L) :
    (distinct_labels xs).Nodup := by
  induction xs with
  | nil => simp [distinct_labels]
  | cons y ys ih =>
    simp only [distinct_labels, List.nodup_cons, List.mem_filter, decide_eq_true_eq]
    exact ⟨fun h => h.2 rfl, ih.filter _⟩

theorem distinct_labels_append {L : Type} [DecidableEq L] (xs ys : List L) :
    distinct_labels (xs ++ ys)
      = distinct_labels xs ++ (distinct_labels ys).filter (fun y => decide (y ∉ xs)) := by
  induction xs with
  | nil => simp [distinct_labels]
  | cons x xs ih =>
    have e : distinct_labels (x :: xs ++ ys)
        = x :: (distinct_labels (xs ++ ys)).filter (fun y => decide (y ≠ x)) := rfl
    rw [e, ih]
    simp only [distinct_labels, List.filter_append, List.filter_filter, List.cons_append]
    congr 2
    apply List.filter_congr
    intro y _
    simp [and_comm]

theorem new_labels_cons_mem {L : Type} [DecidableEq L] (ks xs : List L) (x : L) (h : x ∈ ks) :
    new_labels ks (x :: xs) = new_labels ks xs := by
  simp only [new_labels, distinct_labels, List.filter_cons, h, not_true_eq_false, decide_False,
    List.filter_filter]
  apply List.filter_congr
  intro y _
  by_cases hy : y ∈ ks
  · simp [hy]
  · have : y ≠ x := fun e => hy (e ▸ h)
    simp [hy, this]

theorem new_labels_cons_not_mem {L : Type} [DecidableEq L] (ks xs : List L) (x : L)
    (h : x ∉ ks) :
    new_labels ks (x :: xs) = x :: new_labels (ks ++ [x]) xs := by
  simp only [new_labels, distinct_labels, List.filter_cons, h, not_false_eq_true, decide_True,
    List.filter_filter, if_true, List.cons.injEq, true_and]
  apply List.filter_congr
  intro y _
  simp [Bool.and_comm]


theorem new_labels_append {L : Type} [DecidableEq L] (ks xs ys : List L) :
    new_labels ks (xs ++ ys) = new_labels ks xs ++ new_labels (ks ++ new_labels ks xs) ys := by
  simp only [new_labels, distinct_labels_append, List.filter_append, List.filter_filter,
    List.append_cancel_left_eq]
  apply List.filter_congr
  intro y _
  by_cases h1 : y ∈ ks <;> by_cases h2 : y ∈ xs <;> simp [h1, h2, mem_distinct_labels]

theorem new_labels_nil_left {L : Type} [DecidableEq L] (xs : List L) :
    new_labels [] xs = distinct_labels xs := by
  simp [new_labels]

theorem nodup_new_labels {L : Type} [DecidableEq L] (ks xs : List L) (h : ks.Nodup) :
    (ks ++ new_labels ks xs).Nodup := by
  rw [List.nodup_append]
  refine ⟨h, (nodup_distinct_labels xs).filter _, ?_⟩
  intro a ha hb
  simp [new_labels] at hb
  exact hb.2 ha

theorem wf_empty {T L : Type} : (container.empty : container T L).wf := by
  simp [container.wf, container.empty, map_keys, number_from]

theorem getElem?_append_range_map {α : Type} (pre : List α) (f : Nat → α) (n j : Nat)
    (hj : j < n) : (pre ++ (List.range n).map f)[pre.length + j]? = some (f j) := by
  rw [List.getElem?_append_right (by omega)]
  simp [hj]


theorem map_find_lt_of_wf {T L : Type} [DecidableEq L] (c : container T L) (h : c.wf)
    (key : L) (idx : Nat) (hf : map_find c.track_labels key = some idx) :
    idx < c.tracks.length := by
  obtain ⟨h1, _, h3⟩ := h
  rw [h1, map_find_number_from] at hf
  by_cases hm : key ∈ map_keys c.track_labels
  · simp only [hm, if_true, Option.some.injEq, Nat.zero_add] at hf
    rw [h3, ← hf]
    exact List.indexOf_lt_length.mpr hm
  · simp [hm] at hf

theorem labels_fit_of_wf {D T L : Type} [DecidableEq L] (c : container T L) (h : c.wf)
    (dets : List (D × L)) :
    labels_fit (get_unlabeled_dets dets, c.tracks)
      (get_association_labels dets c.track_labels) := by
  rw [get_unlabeled_dets_eq, get_association_labels_eq]
  refine ⟨by simp, ?_⟩
  intro v hv
  obtain ⟨det, _, rfl⟩ := List.mem_map.mp hv
  unfold label_against
  cases hf : map_find c.track_labels det.2 with
  | none => exact Or.inl rfl
  | some j =>
    right
    have := map_find_lt_of_wf c h det.2 j hf
    exact ⟨Int.ofNat_nonneg j, by simpa using this⟩

theorem forall₂_flatten {α β : Type} (R : α → β → Prop) (xs : List (List α))
    (ys : List (List β)) (h : List.Forall₂ (List.Forall₂ R) xs ys) :
    List.Forall₂ R xs.flatten ys.flatten := by
  induction h with
  | nil => simp
  | cons h1 _ ih => simpa using List.rel_append h1 ih

theorem forall₂_getElem? {α β : Type} (R : α → β → Prop) (xs : List α) (ys : List β)
    (h : List.Forall₂ R xs ys) (j : Nat) (x : α) (y : β) (hx : xs[j]? = some x)
    (hy : ys[j]? = some y) : R x y := by
  induction h generalizing j with
  | nil => simp at hx
  | cons h1 _ ih =>
    cases j with
    | zero => simp at hx hy; subst hx; subst hy; exact h1
    | succ j => simp at hx hy; exact ih j hx hy

theorem mem_new_labels {L : Type} [DecidableEq L] (ks xs : List L) (x : L) :
    x ∈ new_labels ks xs ↔ x ∈ xs ∧ x ∉ ks := by
  simp [new_labels, mem_distinct_labels]

theorem distinct_labels_of_nodup {L : Type} [DecidableEq L] (xs : List L) (h : xs.Nodup) :
    distinct_labels xs = xs := by
  induction xs with
  | nil => rfl
  | cons x xs ih =>
    obtain ⟨hx, hxs⟩ := List.nodup_cons.mp h
    simp only [distinct_labels, ih hxs, List.cons.injEq, true_and]
    rw [List.filter_eq_self]
    intro y hy
    simp only [decide_eq_true_eq]
    exact fun e => hx (e ▸ hy)

theorem length_distinct_labels {L : Type} [DecidableEq L] (xs : List L) :
    (distinct_labels xs).length = xs.toFinset.card := by
  rw [← List.toFinset_card_of_nodup (nodup_distinct_labels xs)]
  congr 1
  ext x
  simp [mem_distinct_labels]

theorem mem_number_from {L : Type} (off : Nat) (ks : List L) (entry : L × Nat)
    (h : entry ∈ number_from off ks) : entry.2 < off + ks.length := by
  induction ks generalizing off with
  | nil => simp [number_from] at h
  | cons k ks ih =>
    simp only [number_from, List.mem_cons] at h
    rcases h with h | h
    · subst h; simp
    · have := ih (off + 1) h
      simp only [List.length_cons]; omega

theorem indexOf_distinct_labels_first {L : Type} [DecidableEq L] (pre post : List L) (key : L)
    (h : key ∉ pre) :
    (distinct_labels (pre ++ key :: post)).indexOf key = pre.toFinset.card := by
  have hd : key ∉ distinct_labels pre := fun hm => h ((mem_distinct_labels pre key).mp hm)
  rw [distinct_labels_append, List.indexOf_append_of_not_mem hd, ← length_distinct_labels]
  simp [distinct_labels, List.filter_cons, h]

theorem payloads_cons {D L : Type} [DecidableEq L] (key : L) (det : D × L)
    (rest : List (D × L)) :
    payloads key (det :: rest)
      = if det.2 = key then det.1 :: payloads key rest else payloads key rest := by
  by_cases h : det.2 = key <;> simp [payloads, List.filter_cons, h]

theorem payloads_eq_nil_iff {D L : Type} [DecidableEq L] (key : L) (dets : List (D × L)) :
    payloads key dets = [] ↔ key ∉ dets.map Prod.snd := by
  induction dets with
  | nil => simp [payloads]
  | cons det rest ih =>
    rw [payloads_cons]
    by_cases h : det.2 = key
    · simp [h]
    · have h' : ¬ key = det.2 := fun e => h e.symm
      simp [h, h', ih]

theorem zipWith_congr_mem {α β γ : Type} (f g : α → β → γ) (xs : List α) (ys : List β)
    (h : ∀ x ∈ xs, ∀ y, f x y = g x y) : List.zipWith f xs ys = List.zipWith g xs ys := by
  induction xs generalizing ys with
  | nil => simp
  | cons x xs ih =>
    cases ys with
    | nil => simp
    | cons y ys =>
      simp only [List.zipWith_cons_cons]
      rw [h x (List.mem_cons_self _ _) y, ih ys (fun x' hx' => h x' (List.mem_cons_of_mem _ hx'))]

theorem zipWith_modify_indexOf {L β γ : Type} [DecidableEq L] (f : L → β → γ)
    (g : β → β) (ks : List L) (ts : List β) (key : L) (hnd : ks.Nodup) :
    List.zipWith f ks (ts.modify g (ks.indexOf key))
      = List.zipWith (fun k t => f k (if key = k then g t else t)) ks ts := by
  induction ks generalizing ts with
  | nil => simp
  | cons k ks ih =>
    obtain ⟨hk, hks⟩ := List.nodup_cons.mp hnd
    cases ts with
    | nil => simp
    | cons t ts =>
      by_cases h : k = key
      · subst h
        simp only [List.indexOf_cons_self, List.modify_zero_cons, List.zipWith_cons_cons,
          if_true, List.cons.injEq, true_and]
        apply zipWith_congr_mem
        intro x hx y
        have : ¬ k = x := fun e => hk (e ▸ hx)
        simp [this]
      · have h' : ¬ key = k := fun e => h e.symm
        rw [List.indexOf_cons_ne _ h]
        simp only [List.modify_succ_cons, List.zipWith_cons_cons, h', if_false, ih ts hks]

theorem zipWith_set_indexOf {L γ : Type} [DecidableEq L] (f : L → Bool → γ)
    (ks : List L) (bs : List Bool) (key : L) (hnd : ks.Nodup) :
    List.zipWith f ks (bs.set (ks.indexOf key) true)
      = List.zipWith (fun k b => f k (if key = k then true else b)) ks bs := by
  induction ks generalizing bs with
  | nil => simp
  | cons k ks ih =>
    obtain ⟨hk, hks⟩ := List.nodup_cons.mp hnd
    cases bs with
    | nil => simp
    | cons b bs =>
      by_cases h : k = key
      · subst h
        simp only [List.indexOf_cons_self, List.set_cons_zero, List.zipWith_cons_cons,
          if_true, List.cons.injEq, true_and]
        apply zipWith_congr_mem
        intro x hx y
        have : ¬ k = x := fun e => hk (e ▸ hx)
        simp [this]
      · have h' : ¬ key = k := fun e => h e.symm
        rw [List.indexOf_cons_ne _ h]
        simp only [List.set_cons_succ, List.zipWith_cons_cons, h', if_false, ih bs hks]

theorem zipWith_append_left_of_le {α β γ : Type} (f : α → β → γ) (xs xs' : List α)
    (ys : List β) (h : ys.length ≤ xs.length) :
    List.zipWith f (xs ++ xs') ys = List.zipWith f xs ys := by
  induction xs generalizing ys with
  | nil =>
    have : ys = [] := List.length_eq_zero.mp (Nat.le_zero.mp h)
    subst this; simp
  | cons x xs ih =>
    cases ys with
    | nil => simp
    | cons y ys =>
      simp only [List.cons_append, List.zipWith_cons_cons, List.cons.injEq, true_and]
      exact ih ys (by simpa using h)

theorem modify_append_of_lt {α : Type} (g : α → α) (a b : List α) (i : Nat)
    (h : i < a.length) : (a ++ b).modify g i = a.modify g i ++ b := by
  induction a generalizing i with
  | nil => simp at h
  | cons x xs ih =>
    cases i with
    | zero => simp
    | succ i => simp [ih i (by simpa using h)]

theorem modify_append_length {α : Type} (g : α → α) (a b : List α) (x : α) :
    (a ++ x :: b).modify g a.length = a ++ g x :: b := by
  induction a with
  | nil => simp
  | cons y ys ih => simp [ih]

theorem zipWith_snd_of_le {α β : Type} (xs : List α) (ys : List β)
    (h : ys.length ≤ xs.length) : List.zipWith (fun _ y => y) xs ys = ys := by
  induction xs generalizing ys with
  | nil =>
    have : ys = [] := List.length_eq_zero.mp (Nat.le_zero.mp h)
    subst this; simp
  | cons x xs ih =>
    cases ys with
    | nil => simp
    | cons y ys => simp [ih ys (by simpa using h)]

theorem not_mem_new_labels_of_mem {L : Type} [DecidableEq L] (ks xs : List L) (x : L)
    (h : x ∈ ks) : x ∉ new_labels ks xs := by
  intro hm
  exact ((mem_new_labels ks xs x).mp hm).2 h

theorem zipWith_flags_tracks {D T L : Type} [DecidableEq L] (ops : track_ops D T)
    (dets : List (D × L)) (ks : List L) (ts : List T) (h : ts.length = ks.length) :
    List.zipWith (fun b t => if b = false then ops.propagate_track t else t)
        (List.zipWith (fun key b => b || decide (key ∈ dets.map Prod.snd)) ks
          (List.replicate ts.length false))
        (List.zipWith (fun key t => (payloads key dets).foldl ops.update_track t) ks ts)
      = List.zipWith (fun key t =>
          if key ∈ dets.map Prod.snd then (payloads key dets).foldl ops.update_track t
          else ops.propagate_track t) ks ts := by
  induction ks generalizing ts with
  | nil => simp
  | cons k ks ih =>
    cases ts with
    | nil => simp
    | cons t ts =>
      have hlen : ts.length = ks.length := by simpa using h
      simp only [List.length_cons, List.replicate_succ, List.zipWith_cons_cons,
        Bool.false_or, ih ts hlen, List.cons.injEq, and_true]
      by_cases hk : k ∈ dets.map Prod.snd
      · simp [hk]
      · have := (payloads_eq_nil_iff k dets).mpr hk
        simp [hk, this]

theorem map_find_of_getElem? {T L : Type} [DecidableEq L] (c : container T L) (h : c.wf)
    (i : Nat) (key : L) (hk : (map_keys c.track_labels)[i]? = some key) :
    map_find c.track_labels key = some i := by
  obtain ⟨h1, h2, _⟩ := h
  obtain ⟨hlt, hget⟩ := List.getElem?_eq_some_iff.mp hk
  have hmem : key ∈ map_keys c.track_labels := hget ▸ List.getElem_mem hlt
  have hidx : (map_keys c.track_labels).indexOf key = i := by
    rw [← hget]; exact List.indexOf_getElem h2 i hlt
  conv_lhs => rw [h1]
  rw [map_find_number_from]
  simp [hmem, hidx]

theorem payloads_ne_nil_of_mem_new_labels {D L : Type} [DecidableEq L] (ks : List L)
    (dets : List (D × L)) (key : L) (h : key ∈ new_labels ks (dets.map Prod.snd)) :
    payloads key dets ≠ [] := by
  intro he
  exact (payloads_eq_nil_iff key dets).mp he ((mem_new_labels _ _ _).mp h).1

theorem double_le_zero_not_gt_zero (x : double) (h : x.le_zero = true) :
    x.gt_zero = false := by
  cases x with
  | finite value =>
    simp only [double.le_zero, decide_eq_true_eq] at h
    simp only [double.gt_zero, decide_eq_false_iff_not, not_lt]
    exact h
  | pos_inf => simp [double.le_zero] at h
  | neg_inf => rfl
  | nan => rfl

theorem find_num_dims_loop_short {D T L F : Type} (ops : track_ops D T)
    (feats : T → D → List F) (history : List (List (D × L)))
    (hshort : history.length < 2 ^ 32) (fuel j : Nat) (hj : j ≤ history.length)
    (hfuel : history.length - j < fuel) :
    find_num_dims_loop ops feats history fuel j
      = outcome.returns (((history.drop j).flatten.head?).map
          (fun det => (feats ops.new_track det.1).length)) := by
  induction fuel generalizing j with
  | zero => omega
  | succ fuel ih =>
    by_cases hlt : j < history.length
    · have hdrop : history.drop j = history[j] :: history.drop (j + 1) :=
        List.drop_eq_getElem_cons hlt
      have hget : history.getD j [] = history[j] := by
        simp [List.getD, List.getElem?_eq_getElem hlt]
      have hmod : (j + 1) % 2 ^ 32 = j + 1 := Nat.mod_eq_of_lt (by omega)
      simp only [find_num_dims_loop, hlt, if_true, hget, hdrop, List.flatten_cons]
      cases hs : history[j] with
      | nil =>
        simp only [List.nil_append]
        rw [hmod]
        exact ih (j + 1) (by omega) (by omega)
      | cons det more => simp
    · have hje : j = history.length := by omega
      simp [find_num_dims_loop, hje]

/-- The value of `find_num_dims` when every history has fewer than `2 ^ 32` time steps:
the feature length for the first detection in history-major, step-minor order, or the
fatal error when there is no detection. -/
theorem find_num_dims_short {D T L F : Type} (ops : track_ops D T)
    (feats : T → D → List F) (samples : List (List (List (D × L))))
    (hshort : ∀ history ∈ samples, history.length < 2 ^ 32) :
    find_num_dims ops feats samples
      = match samples.flatten.flatten.head? with
        | some det => outcome.returns (feats ops.new_track det.1).length
        | none => outcome.fatal no_detections_message := by
  induction samples with
  | nil => simp [find_num_dims, DLIB_CASSERT, outcome.and_then]
  | cons history rest ih =>
    have h1 := find_num_dims_loop_short ops feats history
      (hshort history (List.mem_cons_self _ _)) (2 ^ 32) 0 (Nat.zero_le _)
      (by have := hshort history (List.mem_cons_self _ _); omega)
    have h2 := ih (fun h hh => hshort h (List.mem_cons_of_mem _ hh))
    simp only [List.drop_zero] at h1
    simp only [find_num_dims, h1, outcome.and_then, List.flatten_cons, List.flatten_append]
    cases hh : history.flatten with
    | nil => simp [h2]
    | cons det more => simp

theorem find_num_dims_loop_hangs {D T L F : Type} (ops : track_ops D T)
    (feats : T → D → List F) (N : Nat) (hN : N = 2 ^ 32) (rest : List (List (D × L)))
    (fuel j : Nat) (h : j + fuel = N) :
    find_num_dims_loop ops feats (List.replicate N [] ++ rest) fuel j = outcome.hangs := by
  induction fuel generalizing j with
  | zero => rfl
  | succ fuel ih =>
    have hjN : j < N := by omega
    have hlt : j < (List.replicate N ([] : List (D × L)) ++ rest).length := by
      simp only [List.length_append, List.length_replicate]; omega
    have hget : (List.replicate N ([] : List (D × L)) ++ rest).getD j [] = [] := by
      rw [List.getD_eq_getElem?_getD, List.getElem?_append_left (by simpa using hjN)]
      simp [hjN]
    simp only [find_num_dims_loop, hlt, if_true, hget]
    cases fuel with
    | zero => rfl
    | succ fuel' =>
      have hmod : (j + 1) % 2 ^ 32 = j + 1 := Nat.mod_eq_of_lt (by omega)
      rw [hmod]
      exact ih (j + 1) (by omega)

theorem find_num_dims_hangs {D T L F : Type} (ops : track_ops D T)
    (feats : T → D → List F) (rest : List (List (D × L)))
    (more : List (List (List (D × L)))) :
    find_num_dims ops feats ((List.replicate (2 ^ 32) [] ++ rest) :: more)
      = outcome.hangs := by
  have h := find_num_dims_loop_hangs ops feats (2 ^ 32) rfl rest (2 ^ 32) 0 (by omega)
  rw [find_num_dims, h]
  rfl

theorem mem_det_history_reads {α : Type} (det_history : List α) (i : Nat)
    (h : i ∈ det_history_reads det_history) : i < det_history.length := by
  unfold det_history_reads at h
  by_cases hl : det_history.length < 1
  · simp [hl] at h
  · simp only [hl, if_false, List.mem_cons, List.mem_map, List.mem_range] at h
    rcases h with h | ⟨j, hj, rfl⟩
    · omega
    · omega

theorem map_find_eq_some_of_wf {T L : Type} [DecidableEq L] (c : container T L) (h : c.wf)
    (key : L) (idx : Nat) (hf : map_find c.track_labels key = some idx) :
    key ∈ map_keys c.track_labels ∧ (map_keys c.track_labels).indexOf key = idx := by
  obtain ⟨h1, _, _⟩ := h
  rw [h1, map_find_number_from] at hf
  by_cases hm : key ∈ map_keys c.track_labels
  · simp only [hm, if_true, Option.some.injEq, Nat.zero_add] at hf
    exact ⟨hm, hf⟩
  · simp [hm] at hf

/-- For inputs in which every history has fewer than `2 ^ 32` time steps, `find_num_dims`
ends with the fatal error exactly when every time-step detection set of every history is
empty, and otherwise returns the feature length for the first detection in history-major,
step-minor order. -/
theorem find_num_dims_short_spec {D T L F : Type} (ops : track_ops D T)
    (feats : T → D → List F) (samples : List (List (List (D × L))))
    (hshort : ∀ history ∈ samples, history.length < 2 ^ 32) :
    (find_num_dims ops feats samples = outcome.fatal no_detections_message
        ↔ ∀ history ∈ samples, ∀ dets ∈ history, dets = [])
      ∧ ∀ det : D × L, samples.flatten.flatten.head? = some det →
          find_num_dims ops feats samples
            = outcome.returns (feats ops.new_track det.1).length := by
  have h := find_num_dims_short ops feats samples hshort
  constructor
  · cases hh : samples.flatten.flatten with
    | nil =>
      rw [hh] at h
      simp only [List.head?_nil] at h
      rw [h]
      simp only [true_iff]
      intro history hhist dets hdets
      have h1 : samples.flatten = [] ∨ ∀ l ∈ samples.flatten, l = [] := by
        right; exact List.flatten_eq_nil_iff.mp hh
      rcases h1 with h1 | h1
      · exact absurd (List.mem_flatten.mpr ⟨history, hhist, hdets⟩) (by simp [h1])
      · exact h1 dets (List.mem_flatten.mpr ⟨history, hhist, hdets⟩)
    | cons det more =>
      rw [hh] at h
      simp only [List.head?_cons] at h
      rw [h]
      constructor
      · intro e; exact outcome.noConfusion e
      · intro hall
        have : samples.flatten.flatten = [] := by
          apply List.flatten_eq_nil_iff.mpr
          intro l hl
          obtain ⟨history, hhist, hdets⟩ := List.mem_flatten.mp hl
          exact hall history hhist l hdets
        rw [this] at hh
        exact absurd hh (by simp)
  · intro det hdet
    rw [h, hdet]

theorem first_loop_ok_cons_mem {L : Type} [DecidableEq L] (ks : List L) (n0 : Nat) (x : L)
    (xs : List L) (hmem : x ∈ ks) :
    first_loop_ok ks n0 (x :: xs) ↔ ks.indexOf x < n0 ∧ first_loop_ok ks n0 xs := by
  simp only [first_loop_ok, List.mem_cons, forall_eq_or_imp, hmem, true_implies,
    List.filter_cons, not_true_eq_false, decide_False, Bool.false_eq_true, if_false]
  tauto

theorem first_loop_ok_cons_not_mem {L : Type} [DecidableEq L] (ks : List L) (n0 : Nat) (x : L)
    (xs : List L) (hmem : x ∉ ks) (hn0 : n0 ≤ ks.length) :
    first_loop_ok ks n0 (x :: xs) ↔ first_loop_ok (ks ++ [x]) n0 xs := by
  have hidx : (ks ++ [x]).indexOf x = ks.length := by
    rw [List.indexOf_append_of_not_mem hmem]; simp
  have hf : (x :: xs).filter (fun l => decide (l ∉ ks))
      = x :: xs.filter (fun l => decide (l ∉ ks)) := by
    simp [List.filter_cons, hmem]
  have hff : xs.filter (fun l => decide (l ∉ ks ++ [x]))
      = (xs.filter (fun l => decide (l ∉ ks))).filter (fun l => decide (l ≠ x)) := by
    rw [List.filter_filter]
    apply List.filter_congr
    intro y _
    simp [Bool.and_comm]
  unfold first_loop_ok
  rw [hf, hff, List.nodup_cons]
  constructor
  · rintro ⟨h1, h2, h3⟩
    refine ⟨?_, h3.filter _⟩
    intro l hl hk
    rcases List.mem_append.mp hk with hk | hk
    · rw [List.indexOf_append_of_mem hk]
      exact h1 l (List.mem_cons_of_mem _ hl) hk
    · have e : l = x := by simpa using hk
      subst e
      exact absurd (List.mem_filter.mpr ⟨hl, by simpa using hmem⟩) h2
  · rintro ⟨h1, h2⟩
    have hx : x ∉ xs := by
      intro hx
      have := h1 x hx (List.mem_append_right _ (List.mem_singleton_self x))
      rw [hidx] at this
      omega
    have hsame : (xs.filter (fun l => decide (l ∉ ks))).filter (fun l => decide (l ≠ x))
        = xs.filter (fun l => decide (l ∉ ks)) := by
      rw [List.filter_eq_self]
      intro y hy
      have : y ≠ x := fun e => hx (e ▸ (List.mem_filter.mp hy).1)
      simpa using this
    rw [hsame] at h2
    refine ⟨?_, fun hm => hx (List.mem_filter.mp hm).1, h2⟩
    intro l hl hk
    rcases List.mem_cons.mp hl with e | hl
    · exact absurd (e ▸ hk) hmem
    · have := h1 l hl (List.mem_append_left _ hk)
      rwa [List.indexOf_append_of_mem hk] at this

theorem first_loop_ok_full {L : Type} [DecidableEq L] (ks labels : List L) :
    first_loop_ok ks ks.length labels
      ↔ (labels.filter (fun l => decide (l ∉ ks))).Nodup := by
  simp only [first_loop_ok, and_iff_right_iff_imp]
  intro _ l _ hk
  exact List.indexOf_lt_length.mpr hk

theorem assign_dets_loop_cons_mem {D T L : Type} [DecidableEq L] (ops : track_ops D T)
    (det : D × L) (rest : List (D × L)) (tracks : List T) (ks : List L)
    (updated_track : List Bool) (hmem : det.2 ∈ ks) :
    assign_dets_loop ops (det :: rest) (tracks, number_from 0 ks, updated_track)
      = if ks.indexOf det.2 < tracks.length ∧ ks.indexOf det.2 < updated_track.length then
          assign_dets_loop ops rest
            (tracks.modify (fun t => ops.update_track t det.1) (ks.indexOf det.2),
             number_from 0 ks, updated_track.set (ks.indexOf det.2) true)
        else none := by
  have hf : map_find (number_from 0 ks) det.2 = some (ks.indexOf det.2) := by
    simp [map_find_number_from, hmem]
  simp only [assign_dets_loop, hf]

theorem assign_dets_loop_cons_not_mem {D T L : Type} [DecidableEq L] (ops : track_ops D T)
    (det : D × L) (rest : List (D × L)) (tracks : List T) (ks : List L)
    (updated_track : List Bool) (hlen : tracks.length = ks.length) (hmem : det.2 ∉ ks) :
    assign_dets_loop ops (det :: rest) (tracks, number_from 0 ks, updated_track)
      = assign_dets_loop ops rest
          (tracks ++ [ops.update_track ops.new_track det.1], number_from 0 (ks ++ [det.2]),
           updated_track) := by
  have hf : map_find (number_from 0 ks) det.2 = none := by
    simp [map_find_number_from, hmem]
  have hmap : map_assign (number_from 0 ks) det.2
      ((tracks ++ [ops.update_track ops.new_track det.1]).length - 1)
      = number_from 0 (ks ++ [det.2]) := by
    rw [map_assign_number_from _ _ _ _ hmem, number_from_append]
    simp [number_from, hlen]
  simp only [assign_dets_loop, hf, hmap]

theorem nodup_append_singleton {L : Type} (ks : List L) (x : L) (hnd : ks.Nodup)
    (hmem : x ∉ ks) : (ks ++ [x]).Nodup := by
  rw [List.nodup_append]
  refine ⟨hnd, by simp, ?_⟩
  intro a ha hb
  simp at hb
  exact hmem (hb ▸ ha)

/-- The first loop of `add_dets_to_tracks` has no result when the labels of the step do
not suit it. -/
theorem assign_dets_loop_none {D T L : Type} [DecidableEq L] (ops : track_ops D T)
    (dets : List (D × L)) (tracks : List T) (ks : List L) (n0 : Nat)
    (updated_track : List Bool) (hlen : tracks.length = ks.length)
    (hupd : updated_track.length = n0) (hn0 : n0 ≤ ks.length)
    (hnot : ¬ first_loop_ok ks n0 (dets.map Prod.snd)) :
    assign_dets_loop ops dets (tracks, number_from 0 ks, updated_track) = none := by
  induction dets generalizing tracks ks updated_track with
  | nil => exact absurd (by simp [first_loop_ok]) hnot
  | cons det rest ih =>
    rw [List.map_cons] at hnot
    by_cases hmem : det.2 ∈ ks
    · rw [assign_dets_loop_cons_mem ops det rest tracks ks updated_track hmem]
      rw [first_loop_ok_cons_mem ks n0 det.2 _ hmem] at hnot
      by_cases hidx : ks.indexOf det.2 < n0
      · rw [if_pos ⟨by omega, by omega⟩]
        exact ih _ ks _ (by simp [hlen]) (by simp [hupd]) hn0 (fun h => hnot ⟨hidx, h⟩)
      · rw [if_neg (fun h => hidx (by omega))]
    · rw [assign_dets_loop_cons_not_mem ops det rest tracks ks updated_track hlen hmem]
      rw [first_loop_ok_cons_not_mem ks n0 det.2 _ hmem hn0] at hnot
      exact ih _ (ks ++ [det.2]) _ (by simp [hlen]) hupd (by simp; omega) hnot

/-- The first loop of `add_dets_to_tracks` on labels that suit it: the track of each key,
old or new, has received the updates with the payloads of the detections carrying the key,
in arrival order, the track of a new key starting from the default-constructed track; the
new labels are numbered after the keys, in order of first appearance; the flag of a track
that existed when the step began is set exactly when a detection of the step carries its
key. -/
theorem assign_dets_loop_some {D T L : Type} [DecidableEq L] (ops : track_ops D T)
    (dets : List (D × L)) (tracks : List T) (ks : List L) (n0 : Nat)
    (updated_track : List Bool) (hnd : ks.Nodup) (hlen : tracks.length = ks.length)
    (hupd : updated_track.length = n0) (hn0 : n0 ≤ ks.length)
    (hok : first_loop_ok ks n0 (dets.map Prod.snd)) :
    assign_dets_loop ops dets (tracks, number_from 0 ks, updated_track)
      = some
          (List.zipWith (fun key t => (payloads key dets).foldl ops.update_track t)
            (ks ++ new_labels ks (dets.map Prod.snd))
            (tracks ++ List.replicate (new_labels ks (dets.map Prod.snd)).length
              ops.new_track),
           number_from 0 (ks ++ new_labels ks (dets.map Prod.snd)),
           List.zipWith (fun key b => b || decide (key ∈ dets.map Prod.snd)) ks
             updated_track) := by
  induction dets generalizing tracks ks updated_track with
  | nil =>
    simp only [assign_dets_loop, List.map_nil, new_labels, distinct_labels, List.filter_nil,
      List.append_nil, List.length_nil, List.replicate_zero, payloads, List.foldl_nil,
      List.not_mem_nil, decide_False, Bool.or_false]
    rw [zipWith_snd_of_le ks tracks (by omega), zipWith_snd_of_le ks updated_track (by omega)]
  | cons det rest ih =>
    rw [List.map_cons] at hok
    have hstep : ∀ (K : List L) (P : List T), K.Nodup →
        List.zipWith (fun key t => (payloads key rest).foldl ops.update_track t) K
            (P.modify (fun t => ops.update_track t det.1) (K.indexOf det.2))
          = List.zipWith (fun key t => (payloads key (det :: rest)).foldl ops.update_track t)
              K P := by
      intro K P hK
      rw [zipWith_modify_indexOf _ _ K P det.2 hK]
      apply zipWith_congr_mem
      intro key _ t
      rw [payloads_cons]
      by_cases h : det.2 = key <;> simp [h]
    by_cases hmem : det.2 ∈ ks
    · obtain ⟨hidx, hok'⟩ := (first_loop_ok_cons_mem ks n0 det.2 _ hmem).mp hok
      have hlt : ks.indexOf det.2 < tracks.length := by omega
      rw [assign_dets_loop_cons_mem ops det rest tracks ks updated_track hmem,
        if_pos ⟨hlt, by omega⟩,
        ih _ ks _ hnd (by simp [hlen]) (by simp [hupd]) hn0 hok']
      simp only [List.map_cons, new_labels_cons_mem ks _ _ hmem]
      congr 2
      · rw [← modify_append_of_lt _ _ _ _ hlt, ← List.indexOf_append_of_mem hmem]
        exact hstep _ _ (nodup_new_labels ks _ hnd)
      · congr 1
        rw [zipWith_set_indexOf _ ks _ det.2 hnd]
        apply zipWith_congr_mem
        intro key _ b
        by_cases h : det.2 = key
        · simp [h]
        · have h' : (key == det.2) = false := by
            simpa using fun e : key = det.2 => h e.symm
          simp [h, h']
    · have hok' := (first_loop_ok_cons_not_mem ks n0 det.2 _ hmem hn0).mp hok
      have hnd' : (ks ++ [det.2]).Nodup := nodup_append_singleton ks det.2 hnd hmem
      have hK : (ks ++ det.2 :: new_labels (ks ++ [det.2]) (rest.map Prod.snd)).Nodup := by
        have := nodup_new_labels (ks ++ [det.2]) (rest.map Prod.snd) hnd'
        simpa using this
      have hidx : (ks ++ det.2 :: new_labels (ks ++ [det.2]) (rest.map Prod.snd)).indexOf det.2
          = tracks.length := by
        rw [List.indexOf_append_of_not_mem hmem, hlen]
        simp
      rw [assign_dets_loop_cons_not_mem ops det rest tracks ks updated_track hlen hmem,
        ih _ (ks ++ [det.2]) _ hnd' (by simp [hlen]) hupd (by simp; omega) hok']
      simp only [List.map_cons, new_labels_cons_not_mem ks _ _ hmem]
      have hA := hstep _ (tracks ++ ops.new_track
        :: List.replicate (new_labels (ks ++ [det.2]) (rest.map Prod.snd)).length ops.new_track)
        hK
      rw [hidx, modify_append_length] at hA
      congr 2
      · simpa [List.replicate_succ] using hA
      · congr 1
        · simp
        · rw [zipWith_append_left_of_le _ _ _ _ (by omega)]
          apply zipWith_congr_mem
          intro key hk b
          have h' : (key == det.2) = false := by
            simpa using fun e : key = det.2 => hmem (e ▸ hk)
          simp [h']

theorem propagate_loop_append {D T : Type} (ops : track_ops D T) (flags : List Bool)
    (pre ts1 ts2 : List T) (h : ts1.length = flags.length) :
    propagate_loop ops flags pre.length (pre ++ (ts1 ++ ts2))
      = some (pre ++ (List.zipWith (fun b t => if b = false then ops.propagate_track t else t)
          flags ts1 ++ ts2)) := by
  induction flags generalizing pre ts1 with
  | nil =>
    have : ts1 = [] := List.length_eq_zero.mp h
    subst this
    simp [propagate_loop]
  | cons b bs ih =>
    cases ts1 with
    | nil => simp at h
    | cons t ts1 =>
      have hlen : ts1.length = bs.length := by simpa using h
      have hlt : pre.length < (pre ++ t :: (ts1 ++ ts2)).length := by simp
      simp only [propagate_loop, List.cons_append, hlt, if_true, modify_append_length,
        List.zipWith_cons_cons]
      by_cases hb : b = false
      · have := ih (pre ++ [ops.propagate_track t]) ts1 hlen
        simp only [List.length_append, List.length_singleton, List.append_assoc,
          List.singleton_append] at this
        simp only [hb, if_true]
        exact this
      · have := ih (pre ++ [t]) ts1 hlen
        simp only [List.length_append, List.length_singleton, List.append_assoc,
          List.singleton_append] at this
        simp only [hb, if_false]
        exact this

/-- On a well-formed container and a time step in which the labels that are not yet keys of
the label map are pairwise distinct, `add_dets_to_tracks` returns: each track that existed
is, at its own position, either updated with the payloads of the detections that carry its
key, in arrival order, or propagated once when there is none; then come the tracks of the
new labels, in order of first appearance, each the default-constructed track updated with
the payloads of the detections that carry the label; the new labels are numbered after the
keys. -/
theorem add_dets_to_tracks_some {D T L : Type} [DecidableEq L] (ops : track_ops D T)
    (c : container T L) (dets : List (D × L)) (h : c.wf)
    (hok : ((dets.map Prod.snd).filter
      (fun l => decide (l ∉ map_keys c.track_labels))).Nodup) :
    add_dets_to_tracks ops c dets
      = some
          ⟨List.zipWith (fun key t =>
              if key ∈ dets.map Prod.snd then (payloads key dets).foldl ops.update_track t
              else ops.propagate_track t) (map_keys c.track_labels) c.tracks
            ++ (new_labels (map_keys c.track_labels) (dets.map Prod.snd)).map (fun key =>
              (payloads key dets).foldl ops.update_track ops.new_track),
           number_from 0
             (map_keys c.track_labels
               ++ new_labels (map_keys c.track_labels) (dets.map Prod.snd))⟩ := by
  obtain ⟨h1, h2, h3⟩ := h
  have hA := assign_dets_loop_some ops dets c.tracks (map_keys c.track_labels)
    (map_keys c.track_labels).length (List.replicate c.tracks.length false) h2 h3
    (by simp [h3]) (Nat.le_refl _) ((first_loop_ok_full _ _).mpr hok)
  rw [← h1] at hA
  have hC := propagate_loop_append ops
    (List.zipWith (fun key b => b || decide (key ∈ dets.map Prod.snd))
      (map_keys c.track_labels) (List.replicate c.tracks.length false)) []
    (List.zipWith (fun key t => (payloads key dets).foldl ops.update_track t)
      (map_keys c.track_labels) c.tracks)
    (List.zipWith (fun key t => (payloads key dets).foldl ops.update_track t)
      (new_labels (map_keys c.track_labels) (dets.map Prod.snd))
      (List.replicate (new_labels (map_keys c.track_labels) (dets.map Prod.snd)).length
        ops.new_track))
    (by simp [h3])
  simp only [List.length_nil, List.nil_append] at hC
  simp only [add_dets_to_tracks, hA]
  rw [List.zipWith_append _ _ _ _ _ h3.symm, hC, zipWith_flags_tracks ops dets _ _ h3]
  simp only [Option.some.injEq, container.mk.injEq, and_true]
  congr 1
  generalize new_labels (map_keys c.track_labels) (dets.map Prod.snd) = news
  induction news with
  | nil => simp
  | cons k ks ih => simp [List.replicate_succ, ih]

/-- On a well-formed container, `add_dets_to_tracks` has no result when a label that is
not yet a key of the label map occurs more than once in the time step. -/
theorem add_dets_to_tracks_none {D T L : Type} [DecidableEq L] (ops : track_ops D T)
    (c : container T L) (dets : List (D × L)) (h : c.wf)
    (hnot : ¬ ((dets.map Prod.snd).filter
      (fun l => decide (l ∉ map_keys c.track_labels))).Nodup) :
    add_dets_to_tracks ops c dets = none := by
  obtain ⟨h1, _, h3⟩ := h
  have hA := assign_dets_loop_none ops dets c.tracks (map_keys c.track_labels)
    (map_keys c.track_labels).length (List.replicate c.tracks.length false) h3
    (by simp [h3]) (Nat.le_refl _) (fun hk => hnot ((first_loop_ok_full _ _).mp hk))
  rw [← h1] at hA
  simp only [add_dets_to_tracks, hA]

theorem add_dets_to_tracks_isSome_iff {D T L : Type} [DecidableEq L] (ops : track_ops D T)
    (c : container T L) (dets : List (D × L)) (h : c.wf) :
    (∃ c1, add_dets_to_tracks ops c dets = some c1)
      ↔ ((dets.map Prod.snd).filter
          (fun l => decide (l ∉ map_keys c.track_labels))).Nodup := by
  constructor
  · rintro ⟨c1, hc⟩
    by_contra hnot
    rw [add_dets_to_tracks_none ops c dets h hnot] at hc
    exact Option.noConfusion hc
  · intro hok
    exact ⟨_, add_dets_to_tracks_some ops c dets h hok⟩

/-- What a call of `add_dets_to_tracks` that returns from a well-formed container
returns. -/
theorem add_dets_to_tracks_spec {D T L : Type} [DecidableEq L] (ops : track_ops D T)
    (c c1 : container T L) (dets : List (D × L)) (h : c.wf)
    (hc : add_dets_to_tracks ops c dets = some c1) :
    c1.tracks
        = List.zipWith (fun key t =>
              if key ∈ dets.map Prod.snd then (payloads key dets).foldl ops.update_track t
              else ops.propagate_track t) (map_keys c.track_labels) c.tracks
            ++ (new_labels (map_keys c.track_labels) (dets.map Prod.snd)).map (fun key =>
              (payloads key dets).foldl ops.update_track ops.new_track)
      ∧ c1.track_labels
        = number_from 0
            (map_keys c.track_labels ++ new_labels (map_keys c.track_labels) (dets.map Prod.snd))
      ∧ c1.tracks.length
        = (map_keys c.track_labels
            ++ new_labels (map_keys c.track_labels) (dets.map Prod.snd)).length := by
  have hok := (add_dets_to_tracks_isSome_iff ops c dets h).mp ⟨c1, hc⟩
  rw [add_dets_to_tracks_some ops c dets h hok] at hc
  have e := Option.some.inj hc
  subst e
  refine ⟨rfl, rfl, ?_⟩
  simp [h.2.2]

theorem wf_add_dets_to_tracks {D T L : Type} [DecidableEq L] (ops : track_ops D T)
    (c c1 : container T L) (dets : List (D × L)) (h : c.wf)
    (hc : add_dets_to_tracks ops c dets = some c1) :
    c1.wf
      ∧ map_keys c1.track_labels
        = map_keys c.track_labels ++ new_labels (map_keys c.track_labels) (dets.map Prod.snd) := by
  have hs := add_dets_to_tracks_spec ops c c1 dets h hc
  have hk : map_keys c1.track_labels
      = map_keys c.track_labels ++ new_labels (map_keys c.track_labels) (dets.map Prod.snd) := by
    rw [hs.2.1, map_keys_number_from]
  refine ⟨⟨?_, ?_, ?_⟩, hk⟩
  · rw [hk]; exact hs.2.1
  · rw [hk]; exact nodup_new_labels _ _ h.2.1
  · rw [hk]; exact hs.2.2

theorem run_steps_cons {D T L : Type} [DecidableEq L] (ops : track_ops D T)
    (dets : List (D × L)) (rest : List (List (D × L))) (c c1 : container T L)
    (hc : add_dets_to_tracks ops c dets = some c1) :
    run_steps ops (dets :: rest) c = run_steps ops rest c1 := by
  simp only [run_steps, hc]

theorem run_steps_cons_none {D T L : Type} [DecidableEq L] (ops : track_ops D T)
    (dets : List (D × L)) (rest : List (List (D × L))) (c : container T L)
    (hc : add_dets_to_tracks ops c dets = none) :
    run_steps ops (dets :: rest) c = none := by
  simp only [run_steps, hc]

theorem run_steps_append {D T L : Type} [DecidableEq L] (ops : track_ops D T)
    (a b : List (List (D × L))) (c : container T L) :
    run_steps ops (a ++ b) c = (run_steps ops a c).bind (run_steps ops b) := by
  induction a generalizing c with
  | nil => simp [run_steps]
  | cons dets rest ih =>
    cases hc : add_dets_to_tracks ops c dets with
    | none =>
      rw [List.cons_append, run_steps_cons_none ops _ _ c hc, run_steps_cons_none ops _ _ c hc]
      rfl
    | some c1 =>
      rw [List.cons_append, run_steps_cons ops _ _ c c1 hc, run_steps_cons ops _ _ c c1 hc]
      exact ih c1

theorem run_steps_singleton {D T L : Type} [DecidableEq L] (ops : track_ops D T)
    (dets : List (D × L)) (c : container T L) :
    run_steps ops [dets] c = add_dets_to_tracks ops c dets := by
  cases hc : add_dets_to_tracks ops c dets with
  | none => rw [run_steps_cons_none ops _ _ c hc]
  | some c1 => rw [run_steps_cons ops _ _ c c1 hc]; rfl

theorem wf_run_steps {D T L : Type} [DecidableEq L] (ops : track_ops D T)
    (steps : List (List (D × L))) (c c1 : container T L) (h : c.wf)
    (hr : run_steps ops steps c = some c1) :
    c1.wf
      ∧ map_keys c1.track_labels
        = map_keys c.track_labels ++ new_labels (map_keys c.track_labels) (labels_of steps) := by
  induction steps generalizing c with
  | nil =>
    have e : c = c1 := by simpa [run_steps] using hr
    subst e
    simp [labels_of, new_labels, distinct_labels, h]
  | cons dets rest ih =>
    cases hc : add_dets_to_tracks ops c dets with
    | none =>
      rw [run_steps_cons_none ops _ _ c hc] at hr
      exact Option.noConfusion hr
    | some c2 =>
      rw [run_steps_cons ops _ _ c c2 hc] at hr
      have h1 := wf_add_dets_to_tracks ops c c2 dets h hc
      have h2 := ih c2 h1.1 hr
      have e2 : labels_of (dets :: rest) = dets.map Prod.snd ++ labels_of rest := by
        simp [labels_of]
      rw [e2, new_labels_append, ← List.append_assoc, ← h1.2]
      exact h2

theorem run_steps_empty_spec {D T L : Type} [DecidableEq L] (ops : track_ops D T)
    (steps : List (List (D × L))) (c : container T L)
    (hr : run_steps ops steps container.empty = some c) :
    c.wf
      ∧ map_keys c.track_labels = distinct_labels (labels_of steps)
      ∧ c.track_labels = number_from 0 (distinct_labels (labels_of steps))
      ∧ c.tracks.length = (distinct_labels (labels_of steps)).length := by
  have h := wf_run_steps ops steps (container.empty : container T L) c wf_empty hr
  have hk : map_keys c.track_labels = distinct_labels (labels_of steps) := by
    rw [h.2]; simp [container.empty, map_keys, new_labels]
  obtain ⟨⟨w1, w2, w3⟩, _⟩ := h
  refine ⟨⟨w1, w2, w3⟩, hk, ?_, ?_⟩
  · rw [← hk]; exact w1
  · rw [← hk]; exact w3

theorem wf_of_reachable {D T L : Type} [DecidableEq L] (ops : track_ops D T)
    (c : container T L) (h : reachable ops c) : c.wf := by
  induction h with
  | empty => exact wf_empty
  | step c c1 dets _ hc ih => exact (wf_add_dets_to_tracks ops c c1 dets ih hc).1

/-- The reachable containers are the results of the runs of `add_dets_to_tracks` over a
list of time steps that return. -/
theorem reachable_iff_run_steps {D T L : Type} [DecidableEq L] (ops : track_ops D T)
    (c : container T L) :
    reachable ops c
      ↔ ∃ steps : List (List (D × L)), run_steps ops steps container.empty = some c := by
  constructor
  · intro h
    induction h with
    | empty => exact ⟨[], rfl⟩
    | step c c1 dets _ hc ih =>
      obtain ⟨steps, hs⟩ := ih
      refine ⟨steps ++ [dets], ?_⟩
      rw [run_steps_append, hs, Option.some_bind, run_steps_singleton]
      exact hc
  · rintro ⟨steps, hs⟩
    induction steps using List.reverseRecOn generalizing c with
    | nil =>
      have e : container.empty = c := by simpa [run_steps] using hs
      subst e
      exact reachable.empty
    | append_singleton steps dets ih =>
      rw [run_steps_append] at hs
      cases hr : run_steps ops steps (container.empty : container T L) with
      | none => rw [hr] at hs; exact Option.noConfusion hs
      | some c0 =>
        rw [hr, Option.some_bind, run_steps_singleton] at hs
        exact reachable.step c0 c dets (ih c0 hr) hs

theorem fresh_labels_distinct_snoc {D L : Type} [DecidableEq L] (steps : List (List (D × L)))
    (dets : List (D × L)) :
    fresh_labels_distinct (steps ++ [dets])
      ↔ fresh_labels_distinct steps
        ∧ ((dets.map Prod.snd).filter (fun l => decide (l ∉ labels_of steps))).Nodup := by
  unfold fresh_labels_distinct
  constructor
  · intro h
    constructor
    · intro t ht
      have := h t (by simp; omega)
      rwa [List.getD_eq_getElem?_getD, List.getElem?_append_left ht,
        List.take_append_of_le_length (by omega), ← List.getD_eq_getElem?_getD] at this
    · have := h steps.length (by simp)
      simpa [List.getD_eq_getElem?_getD] using this
  · rintro ⟨h1, h2⟩ t ht
    by_cases hlt : t < steps.length
    · rw [List.getD_eq_getElem?_getD, List.getElem?_append_left hlt,
        List.take_append_of_le_length (by omega), ← List.getD_eq_getElem?_getD]
      exact h1 t hlt
    · have e : t = steps.length := by simp at ht; omega
      subst e
      simpa [List.getD_eq_getElem?_getD] using h2

/-- The run of `add_dets_to_tracks` over a history returns exactly when no identity label
occurs more than once within the time step in which it first appears. -/
theorem run_steps_isSome_iff {D T L : Type} [DecidableEq L] (ops : track_ops D T)
    (steps : List (List (D × L))) :
    (∃ c : container T L, run_steps ops steps container.empty = some c)
      ↔ fresh_labels_distinct steps := by
  induction steps using List.reverseRecOn with
  | nil =>
    simp only [run_steps, Option.some.injEq, exists_eq', true_iff]
    intro t ht
    simp at ht
  | append_singleton steps dets ih =>
    have hcongr : ∀ c : container T L, run_steps ops steps container.empty = some c →
        (dets.map Prod.snd).filter (fun l => decide (l ∉ map_keys c.track_labels))
          = (dets.map Prod.snd).filter (fun l => decide (l ∉ labels_of steps)) := by
      intro c hr
      apply List.filter_congr
      intro y _
      rw [(run_steps_empty_spec ops steps c hr).2.1]
      simp [mem_distinct_labels]
    rw [fresh_labels_distinct_snoc, ← ih]
    constructor
    · rintro ⟨c, hc⟩
      rw [run_steps_append] at hc
      cases hr : run_steps ops steps (container.empty : container T L) with
      | none => rw [hr] at hc; exact Option.noConfusion hc
      | some c0 =>
        rw [hr, Option.some_bind, run_steps_singleton] at hc
        refine ⟨⟨c0, rfl⟩, ?_⟩
        rw [← hcongr c0 hr]
        exact (add_dets_to_tracks_isSome_iff ops c0 dets
          (run_steps_empty_spec ops steps c0 hr).1).mp ⟨c, hc⟩
    · rintro ⟨⟨c0, hr⟩, hnd⟩
      rw [← hcongr c0 hr] at hnd
      obtain ⟨c, hc⟩ := (add_dets_to_tracks_isSome_iff ops c0 dets
        (run_steps_empty_spec ops steps c0 hr).1).mpr hnd
      refine ⟨c, ?_⟩
      rw [run_steps_append, hr, Option.some_bind, run_steps_singleton]
      exact hc

theorem run_steps_take {D T L : Type} [DecidableEq L] (ops : track_ops D T)
    (steps : List (List (D × L))) (c0 c : container T L)
    (hr : run_steps ops steps c0 = some c) (t : Nat) :
    ∃ c_t, run_steps ops (steps.take t) c0 = some c_t
      ∧ run_steps ops (steps.drop t) c_t = some c := by
  have e : steps = steps.take t ++ steps.drop t := (List.take_append_drop t steps).symm
  rw [e, run_steps_append] at hr
  cases h : run_steps ops (steps.take t) c0 with
  | none => rw [h] at hr; exact Option.noConfusion hr
  | some c_t =>
    rw [h, Option.some_bind] at hr
    exact ⟨c_t, rfl, hr⟩

theorem track_labels_run_steps {D T L : Type} [DecidableEq L] (ops : track_ops D T)
    (steps : List (List (D × L))) (c : container T L)
    (hr : run_steps ops steps container.empty = some c) (key : L) :
    map_find c.track_labels key
      = if key ∈ labels_of steps then
          some ((distinct_labels (labels_of steps)).indexOf key) else none := by
  rw [(run_steps_empty_spec ops steps c hr).2.2.1, map_find_number_from]
  simp [mem_distinct_labels]

theorem convert_loop_eq {D T L : Type} [DecidableEq L] (ops : track_ops D T)
    (rest : List (List (D × L))) (c : container T L) (data : List (List D × List T))
    (labels : List (List Int)) :
    convert_loop ops rest c (data, labels)
      = (run_steps ops rest c).map (fun _ =>
          (data ++ (List.range rest.length).map (fun j =>
              (get_unlabeled_dets (rest.getD j []),
               ((run_steps ops (rest.take j) c).getD container.empty).tracks)),
           labels ++ (List.range rest.length).map (fun j =>
              get_association_labels (rest.getD j [])
                ((run_steps ops (rest.take j) c).getD container.empty).track_labels))) := by
  induction rest generalizing c data labels with
  | nil => simp [convert_loop, run_steps]
  | cons dets rest ih =>
    cases hc : add_dets_to_tracks ops c dets with
    | none =>
      rw [run_steps_cons_none ops _ _ c hc]
      simp only [convert_loop, hc, Option.map_none']
    | some c1 =>
      have hrun : ∀ l : List (List (D × L)),
          run_steps ops (dets :: l) c = run_steps ops l c1 :=
        fun l => run_steps_cons ops dets l c c1 hc
      rw [hrun]
      have h0 : run_steps ops [] c = some c := rfl
      simp only [convert_loop, hc, ih, List.length_cons, List.range_succ_eq_map, List.map_cons,
        List.map_map, List.append_assoc, List.singleton_append, List.getD_cons_zero,
        List.take_zero, h0, Option.getD_some, Function.comp_def, Nat.succ_eq_add_one,
        List.take_succ_cons, List.getD_cons_succ, hrun]

theorem convert_eq {D T L : Type} [DecidableEq L] (ops : track_ops D T)
    (H : List (List (D × L))) (data : List (List D × List T)) (labels : List (List Int)) :
    convert_dets_to_association_sets ops H data labels
      = (run_steps ops H container.empty).map (fun _ =>
          (data ++ (List.range (H.length - 1)).map (fun j =>
              (get_unlabeled_dets (H.getD (j + 1) []),
               ((run_steps ops (H.take (j + 1)) container.empty).getD container.empty).tracks)),
           labels ++ (List.range (H.length - 1)).map (fun j =>
              get_association_labels (H.getD (j + 1) [])
                ((run_steps ops (H.take (j + 1)) container.empty).getD
                  container.empty).track_labels))) := by
  cases H with
  | nil => simp [convert_dets_to_association_sets, run_steps]
  | cons first rest =>
    cases hc : add_dets_to_tracks ops (container.empty : container T L) first with
    | none =>
      rw [run_steps_cons_none ops _ _ _ hc]
      simp only [convert_dets_to_association_sets, hc, Option.map_none']
    | some c1 =>
      have hrun : ∀ l : List (List (D × L)),
          run_steps ops (first :: l) container.empty = run_steps ops l c1 :=
        fun l => run_steps_cons ops first l container.empty c1 hc
      rw [hrun]
      simp only [convert_dets_to_association_sets, hc, convert_loop_eq, List.length_cons,
        Nat.add_sub_cancel, List.getD_cons_succ, List.take_succ_cons, hrun]

theorem convert_isSome_iff {D T L : Type} [DecidableEq L] (ops : track_ops D T)
    (H : List (List (D × L))) (data : List (List D × List T)) (labels : List (List Int)) :
    (∃ out, convert_dets_to_association_sets ops H data labels = some out)
      ↔ fresh_labels_distinct H := by
  rw [← run_steps_isSome_iff ops (T := T) H, convert_eq]
  constructor
  · rintro ⟨out, ho⟩
    cases hr : run_steps ops H (container.empty : container T L) with
    | none => rw [hr] at ho; exact Option.noConfusion ho
    | some c => exact ⟨c, rfl⟩
  · rintro ⟨c, hr⟩
    rw [hr]
    exact ⟨_, rfl⟩

/-- What `convert_dets_to_association_sets` emits for step `t` when it returns: the
detections of the step, paired with the track list of the container that the steps before
`t` have left, and the labels of the detections against the label map of that
container. -/
theorem convert_at {D T L : Type} [DecidableEq L] (ops : track_ops D T)
    (H : List (List (D × L))) (data : List (List D × List T)) (labels : List (List Int))
    (out : List (List D × List T) × List (List Int))
    (hc : convert_dets_to_association_sets ops H data labels = some out)
    (t : Nat) (h1 : 1 ≤ t) (ht : t < H.length) :
    ∃ c_t : container T L, run_steps ops (H.take t) container.empty = some c_t
      ∧ out.1[data.length + (t - 1)]? = some (get_unlabeled_dets (H.getD t []), c_t.tracks)
      ∧ out.2[labels.length + (t - 1)]?
        = some (get_association_labels (H.getD t []) c_t.track_labels) := by
  obtain ⟨j, rfl⟩ : ∃ j, t = j + 1 := ⟨t - 1, by omega⟩
  have hj : j < H.length - 1 := by omega
  rw [convert_eq] at hc
  cases hr : run_steps ops H (container.empty : container T L) with
  | none => rw [hr] at hc; exact Option.noConfusion hc
  | some c =>
    obtain ⟨c_t, hct, _⟩ := run_steps_take ops H container.empty c hr (j + 1)
    rw [hr, Option.map_some'] at hc
    have e := Option.some.inj hc
    subst e
    refine ⟨c_t, hct, ?_, ?_⟩
    · have := getElem?_append_range_map data (fun j =>
        (get_unlabeled_dets (H.getD (j + 1) []),
          ((run_steps ops (H.take (j + 1)) container.empty).getD container.empty).tracks))
        (H.length - 1) j hj
      simpa [hct] using this
    · have := getElem?_append_range_map labels (fun j =>
        get_association_labels (H.getD (j + 1) [])
          ((run_steps ops (H.take (j + 1)) container.empty).getD
            container.empty).track_labels)
        (H.length - 1) j hj
      simpa [hct] using this

theorem convert_append {D T L : Type} [DecidableEq L] (ops : track_ops D T)
    (H : List (List (D × L))) (data : List (List D × List T)) (labels : List (List Int)) :
    convert_dets_to_association_sets ops H data labels
      = (convert_dets_to_association_sets ops H [] []).map
          (fun out => (data ++ out.1, labels ++ out.2)) := by
  rw [convert_eq ops H data labels, convert_eq ops H [] []]
  cases run_steps ops H (container.empty : container T L) with
  | none => rfl
  | some c => simp

theorem train_loop_eq {D T L : Type} [DecidableEq L] (ops : track_ops D T)
    (samples : List (List (List (D × L)))) (data : List (List D × List T))
    (labels : List (List Int)) :
    train_loop ops samples (data, labels)
      = (convert_each ops samples).map (fun outs =>
          (data ++ (outs.map Prod.fst).flatten, labels ++ (outs.map Prod.snd).flatten)) := by
  induction samples generalizing data labels with
  | nil => simp [train_loop, convert_each]
  | cons s rest ih =>
    have happ := convert_append ops s data labels
    cases hs : convert_dets_to_association_sets ops s ([] : List (List D × List T)) [] with
    | none =>
      rw [hs] at happ
      simp only [train_loop, convert_each, happ, hs, Option.map_none']
    | some out =>
      rw [hs, Option.map_some'] at happ
      simp only [train_loop, convert_each, happ, hs, ih]
      cases convert_each ops rest with
      | none => rfl
      | some outs => simp

theorem convert_each_forall₂ {D T L : Type} [DecidableEq L] (ops : track_ops D T)
    (samples : List (List (List (D × L))))
    (outs : List (List (List D × List T) × List (List Int)))
    (h : convert_each ops samples = some outs) :
    List.Forall₂ (fun s out => convert_dets_to_association_sets ops s [] [] = some out)
      samples outs := by
  induction samples generalizing outs with
  | nil =>
    have e : outs = [] := by simpa [convert_each] using h.symm
    subst e
    exact List.Forall₂.nil
  | cons s rest ih =>
    cases hs : convert_dets_to_association_sets ops s ([] : List (List D × List T)) [] with
    | none => simp [convert_each, hs] at h
    | some out =>
      cases hr : convert_each ops rest with
      | none => simp [convert_each, hs, hr] at h
      | some outs1 =>
        have e : out :: outs1 = outs := by simpa [convert_each, hs, hr] using h
        subst e
        exact List.Forall₂.cons hs (ih outs1 hr)

theorem convert_each_eq_none_iff {D T L : Type} [DecidableEq L] (ops : track_ops D T)
    (samples : List (List (List (D × L)))) :
    convert_each (T := T) ops samples = none
      ↔ ∃ s ∈ samples, convert_dets_to_association_sets ops s
          ([] : List (List D × List T)) [] = none := by
  induction samples with
  | nil => simp [convert_each]
  | cons s rest ih =>
    cases hs : convert_dets_to_association_sets ops s ([] : List (List D × List T)) [] with
    | none => simp [convert_each, hs]
    | some out =>
      cases hr : convert_each (T := T) ops rest with
      | none =>
        have := ih.mp hr
        simp only [convert_each, hs, hr, List.mem_cons, exists_eq_or_imp, true_iff]
        exact Or.inr this
      | some outs1 =>
        simp only [convert_each, hs, hr, List.mem_cons, exists_eq_or_imp, false_iff,
          reduceCtorEq, false_or]
        intro hex
        rw [ih.mpr hex] at hr
        exact Option.noConfusion hr

theorem forall₂_mem_right {α β : Type} (R : α → β → Prop) (xs : List α) (ys : List β)
    (h : List.Forall₂ R xs ys) (y : β) (hy : y ∈ ys) : ∃ x, x ∈ xs ∧ R x y := by
  induction h with
  | nil => simp at hy
  | cons h1 _ ih =>
    rcases List.mem_cons.mp hy with e | hy
    · subst e; exact ⟨_, List.mem_cons_self _ _, h1⟩
    · obtain ⟨x, hx, hr⟩ := ih hy
      exact ⟨x, List.mem_cons_of_mem _ hx, hr⟩

theorem forall₂_labels_fit_convert {D T L : Type} [DecidableEq L] (ops : track_ops D T)
    (H : List (List (D × L))) (out : List (List D × List T) × List (List Int))
    (hc : convert_dets_to_association_sets ops H [] [] = some out) :
    List.Forall₂ labels_fit out.1 out.2 := by
  rw [convert_eq] at hc
  cases hr : run_steps ops H (container.empty : container T L) with
  | none => rw [hr] at hc; exact Option.noConfusion hc
  | some c =>
    rw [hr, Option.map_some'] at hc
    have e := Option.some.inj hc
    subst e
    simp only [List.nil_append, List.forall₂_map_left_iff, List.forall₂_map_right_iff,
      List.forall₂_same]
    intro j _
    obtain ⟨c_t, hct, _⟩ := run_steps_take ops H container.empty c hr (j + 1)
    rw [hct, Option.getD_some]
    exact labels_fit_of_wf _ (run_steps_empty_spec ops _ c_t hct).1 _

theorem forall₂_labels_fit_train {D T L : Type} [DecidableEq L] (ops : track_ops D T)
    (samples : List (List (List (D × L))))
    (out : List (List D × List T) × List (List Int))
    (h : train_assignment_sets ops samples = some out) :
    List.Forall₂ labels_fit out.1 out.2 := by
  simp only [train_assignment_sets, train_loop_eq, List.nil_append] at h
  cases hs : convert_each (T := T) ops samples with
  | none => rw [hs] at h; exact Option.noConfusion h
  | some outs =>
    rw [hs, Option.map_some'] at h
    have e := Option.some.inj h
    subst e
    apply forall₂_flatten
    simp only [List.forall₂_map_left_iff, List.forall₂_map_right_iff, List.forall₂_same]
    intro o ho
    have hf := convert_each_forall₂ ops samples outs hs
    obtain ⟨s, _, hso⟩ := forall₂_mem_right _ samples outs hf o ho
    exact forall₂_labels_fit_convert ops s o hso

/-- When the label map numbers the keys `ks` and `updated_track` has `n0` flags, every
index that the first loop of `add_dets_to_tracks` goes on to touch is below `n0` exactly
when the labels still to come suit the loop. -/
theorem touched_indices_lt_iff {D T L : Type} [DecidableEq L] (ops : track_ops D T)
    (dets : List (D × L)) (tracks : List T) (ks : List L) (n0 : Nat)
    (updated_track : List Bool) (hlen : tracks.length = ks.length)
    (hupd : updated_track.length = n0) (hn0 : n0 ≤ ks.length) :
    (∀ idx ∈ touched_indices ops dets (tracks, number_from 0 ks, updated_track), idx < n0)
      ↔ first_loop_ok ks n0 (dets.map Prod.snd) := by
  induction dets generalizing tracks ks updated_track with
  | nil => simp [touched_indices, first_loop_ok]
  | cons det rest ih =>
    rw [List.map_cons]
    by_cases hmem : det.2 ∈ ks
    · have hf : map_find (number_from 0 ks) det.2 = some (ks.indexOf det.2) := by
        simp [map_find_number_from, hmem]
      have h1 := assign_dets_loop_cons_mem ops det [] tracks ks updated_track hmem
      rw [first_loop_ok_cons_mem _ _ _ _ hmem]
      by_cases hidx : ks.indexOf det.2 < n0
      · rw [if_pos ⟨by omega, by omega⟩] at h1
        have h1' : assign_dets_loop ops [det] (tracks, number_from 0 ks, updated_track)
            = some (tracks.modify (fun t => ops.update_track t det.1) (ks.indexOf det.2),
                number_from 0 ks, updated_track.set (ks.indexOf det.2) true) := by
          rw [h1]; rfl
        simp only [touched_indices, hf, h1', List.singleton_append, List.mem_cons,
          forall_eq_or_imp]
        rw [ih _ ks _ (by simp [hlen]) (by simp [hupd]) hn0]
      · constructor
        · intro h
          exact absurd (h _ (by simp [touched_indices, hf])) hidx
        · intro h
          exact absurd h.1 hidx
    · have hf : map_find (number_from 0 ks) det.2 = none := by
        simp [map_find_number_from, hmem]
      have h1 := assign_dets_loop_cons_not_mem ops det [] tracks ks updated_track hlen hmem
      have h1' : assign_dets_loop ops [det] (tracks, number_from 0 ks, updated_track)
          = some (tracks ++ [ops.update_track ops.new_track det.1],
              number_from 0 (ks ++ [det.2]), updated_track) := by
        rw [h1]; rfl
      simp only [touched_indices, hf, h1', List.nil_append]
      rw [ih _ (ks ++ [det.2]) _ (by simp [hlen]) hupd (by simp; omega),
        first_loop_ok_cons_not_mem _ _ _ _ hmem hn0]

/-- On a well-formed container, every index that `add_dets_to_tracks` marks as touched is
below the number of tracks at the start of the step exactly when the labels of the step
that are not yet keys of the label map are pairwise distinct. -/
theorem add_dets_touched_lt_iff {D T L : Type} [DecidableEq L] (ops : track_ops D T)
    (c : container T L) (dets : List (D × L)) (h : c.wf) :
    (∀ idx ∈ add_dets_touched ops c dets, idx < c.tracks.length)
      ↔ ((dets.map Prod.snd).filter
          (fun l => decide (l ∉ map_keys c.track_labels))).Nodup := by
  obtain ⟨h1, _, h3⟩ := h
  have := touched_indices_lt_iff ops dets c.tracks (map_keys c.track_labels)
    (map_keys c.track_labels).length (List.replicate c.tracks.length false) h3
    (by simp [h3]) (Nat.le_refl _)
  rw [← h1, first_loop_ok_full] at this
  unfold add_dets_touched
  rw [h3] at this ⊢
  exact this

theorem propagate_indices_lt {D T L : Type} [DecidableEq L] (ops : track_ops D T)
    (c : container T L) (dets : List (D × L)) (h : c.wf)
    (hok : ((dets.map Prod.snd).filter
      (fun l => decide (l ∉ map_keys c.track_labels))).Nodup) :
    (propagate_indices ops c dets).length = c.tracks.length
      ∧ ∀ i ∈ propagate_indices ops c dets,
          i < (tracks_after_first_loop ops c dets).length := by
  obtain ⟨h1, h2, h3⟩ := h
  have hA := assign_dets_loop_some ops dets c.tracks (map_keys c.track_labels)
    (map_keys c.track_labels).length (List.replicate c.tracks.length false) h2 h3
    (by simp [h3]) (Nat.le_refl _) ((first_loop_ok_full _ _).mpr hok)
  rw [← h1] at hA
  unfold propagate_indices tracks_after_first_loop
  rw [hA]
  constructor
  · simp [h3]
  · intro i hi
    simp only [List.length_range, List.length_zipWith, List.length_replicate, List.mem_range,
      List.length_append, h3, min_self] at hi ⊢
    omega

theorem getD_mem_of_lt {α : Type} (l : List α) (d : α) (t : Nat) (ht : t < l.length) :
    l.getD t d ∈ l := by
  rw [List.getD_eq_getElem?_getD, List.getElem?_eq_getElem ht]
  exact List.getElem_mem ht

/-- A history whose time steps each carry pairwise distinct labels has no label that
occurs more than once within the time step in which it first appears. -/
theorem fresh_of_nodup_steps {D L : Type} [DecidableEq L] (H : List (List (D × L)))
    (hd : ∀ dets ∈ H, (dets.map Prod.snd).Nodup) : fresh_labels_distinct H := by
  intro t ht
  exact (hd _ (getD_mem_of_lt H [] t ht)).filter _

theorem nodup_step_of_nodup_labels {D L : Type} (H : List (List (D × L)))
    (hnd : (labels_of H).Nodup) : ∀ dets ∈ H, (dets.map Prod.snd).Nodup := by
  intro dets hdets
  have hsub : List.Sublist dets H.flatten := List.sublist_flatten_of_mem hdets
  exact List.Nodup.sublist (hsub.map Prod.snd) hnd

theorem convert_lengths {D T L : Type} [DecidableEq L] (ops : track_ops D T)
    (H : List (List (D × L))) (data : List (List D × List T)) (labels : List (List Int))
    (out : List (List D × List T) × List (List Int))
    (hc : convert_dets_to_association_sets ops H data labels = some out) :
    out.1.length = data.length + (H.length - 1)
      ∧ out.2.length = labels.length + (H.length - 1) := by
  rw [convert_eq] at hc
  cases hr : run_steps ops H (container.empty : container T L) with
  | none => rw [hr] at hc; exact Option.noConfusion hc
  | some c =>
    rw [hr, Option.map_some'] at hc
    have e := Option.some.inj hc
    subst e
    simp

/-- The value of the literal `0.1` is the `double` nearest to one tenth: it has a 53-bit
significand at the exponent of the binade of one tenth, and it lies within less than half
a unit in the last place of one tenth. It is not one tenth. -/
theorem double_0_1_nearest :
    double_0_1 = 7205759403792794 / 2 ^ 56
      ∧ (2 : ℚ) ^ 52 ≤ 7205759403792794 ∧ (7205759403792794 : ℚ) < 2 ^ 53
      ∧ |double_0_1 - 1 / 10| < 1 / 2 ^ 57
      ∧ double_0_1 ≠ 1 / 10 := by
  unfold double_0_1
  refine ⟨by norm_num, by norm_num, by norm_num, ?_, by norm_num⟩
  rw [abs_lt]
  constructor <;> norm_num

theorem convert_each_map_some {D T L : Type} [DecidableEq L] (ops : track_ops D T)
    (samples : List (List (List (D × L))))
    (outs : List (List (List D × List T) × List (List Int)))
    (h : convert_each ops samples = some outs) :
    samples.map (fun s => convert_dets_to_association_sets ops s [] []) = outs.map some := by
  have hf := convert_each_forall₂ ops samples outs h
  clear h
  induction hf with
  | nil => rfl
  | cons h1 _ ih => simp [h1, ih]

/-- C2: for every collection of track histories, the training set that `train` builds for
the external trainer, when the loop that builds it returns one, is well formed: as many
label vectors as assignment problems, the `j`-th label vector has one entry per detection
of the `j`-th assignment problem, and each entry is `-1` or an index `k` with `0 ≤ k <` the
length of that problem's track list. The loop returns a training set exactly when in no
history an identity label occurs more than once within the time step in which it first
appears. -/
theorem C2_training_set_well_formed {D T L : Type} [DecidableEq L] (ops : track_ops D T)
    (samples : List (List (List (D × L)))) :
    (∀ out : List (List D × List T) × List (List Int),
        train_assignment_sets ops samples = some out →
          out.1.length = out.2.length
            ∧ ∀ (j : Nat) (problem : List D × List T) (lv : List Int),
                out.1[j]? = some problem → out.2[j]? = some lv →
                  lv.length = problem.1.length
                    ∧ ∀ v ∈ lv, v = -1 ∨ (0 ≤ v ∧ v < (problem.2.length : Int)))
      ∧ ((∃ out : List (List D × List T) × List (List Int),
            train_assignment_sets ops samples = some out)
          ↔ ∀ H ∈ samples, fresh_labels_distinct H) := by
  constructor
  · intro out hout
    have h := forall₂_labels_fit_train ops samples out hout
    refine ⟨h.length_eq, ?_⟩
    intro j problem lv hp hl
    exact forall₂_getElem? labels_fit _ _ h j problem lv hp hl
  · have hmap : train_assignment_sets (T := T) ops samples
        = (convert_each ops samples).map (fun outs =>
            ((outs.map Prod.fst).flatten, (outs.map Prod.snd).flatten)) := by
      simp [train_assignment_sets, train_loop_eq]
    rw [hmap]
    constructor
    · rintro ⟨out, ho⟩ H hH
      by_contra hnot
      have hnone : convert_dets_to_association_sets ops H ([] : List (List D × List T)) []
          = none := by
        cases hc : convert_dets_to_association_sets ops H ([] : List (List D × List T)) [] with
        | none => rfl
        | some o => exact absurd ((convert_isSome_iff ops H [] []).mp ⟨o, hc⟩) hnot
      rw [(convert_each_eq_none_iff ops samples).mpr ⟨H, hH, hnone⟩] at ho
      exact Option.noConfusion ho
    · intro hall
      cases hc : convert_each (T := T) ops samples with
      | none =>
        obtain ⟨H, hH, hnone⟩ := (convert_each_eq_none_iff ops samples).mp hc
        obtain ⟨o, ho⟩ := (convert_isSome_iff ops (T := T) H [] []).mpr (hall H hH)
        rw [hnone] at ho
        exact Option.noConfusion ho
      | some outs => exact ⟨_, rfl⟩

/-- C2 at the two histories `example_history` and `example_history_fresh`: four assignment
problems with the label vectors `[0, -1, 1]`, `[-1]`, `[-1]`, `[-1, -1]`. -/
theorem C2_training_set_well_formed_witness :
    (train_assignment_sets (trace_ops Nat) [example_history, example_history_fresh]).map
          Prod.snd
        = some [[0, -1, 1], [-1], [-1], [-1, -1]]
      ∧ ∃ out, train_assignment_sets (trace_ops Nat) [example_history, example_history_fresh]
            = some out
          ∧ out.1.length = out.2.length
          ∧ ∀ (j : Nat) (problem : List Nat × List (List (track_event Nat))) (lv : List Int),
              out.1[j]? = some problem → out.2[j]? = some lv →
                lv.length = problem.1.length
                  ∧ ∀ v ∈ lv, v = -1 ∨ (0 ≤ v ∧ v < (problem.2.length : Int)) := by
  refine ⟨by decide, ?_⟩
  obtain ⟨out, hout⟩ :=
    (C2_training_set_well_formed (trace_ops Nat) [example_history, example_history_fresh]).2.mpr
      (by decide)
  exact ⟨out, hout,
    (C2_training_set_well_formed (trace_ops Nat) [example_history, example_history_fresh]).1
      out hout⟩

/-- C4: for the history `[ {(d0,a),(d1,b)}, {(d2,a)}, {(d3,c)} ]` with distinct labels
`a`, `b`, `c`, `convert_dets_to_association_sets` returns and exactly two assignment
problems are emitted: `([d2], [track_a, track_b])` with labels `[0]`, where `track_a` is a
fresh track updated with `d0` and `track_b` a fresh track updated with `d1`; then
`([d3], [track_a, track_b])` with labels `[-1]`, where `track_a` has been updated with `d0`
then `d2` and `track_b` updated with `d1` then propagated once. The first two steps leave
the container of these two tracks with the label map `a -> 0, b -> 1`, and processing the
third step from it leaves three tracks and the label map `a -> 0, b -> 1, c -> 2`. -/
theorem C4_concrete_scenario {D T L : Type} [DecidableEq L] (ops : track_ops D T)
    (d0 d1 d2 d3 : D) (a b c : L) (hab : a ≠ b) (hac : a ≠ c) (hbc : b ≠ c) :
    convert_dets_to_association_sets ops [[(d0, a), (d1, b)], [(d2, a)], [(d3, c)]] [] []
        = some
            ([([d2], [ops.update_track ops.new_track d0, ops.update_track ops.new_track d1]),
              ([d3], [ops.update_track (ops.update_track ops.new_track d0) d2,
                      ops.propagate_track (ops.update_track ops.new_track d1)])],
             [[0], [-1]])
      ∧ run_steps ops [[(d0, a), (d1, b)], [(d2, a)]] container.empty
        = some ⟨[ops.update_track (ops.update_track ops.new_track d0) d2,
                 ops.propagate_track (ops.update_track ops.new_track d1)],
                [(a, 0), (b, 1)]⟩
      ∧ add_dets_to_tracks ops
          ⟨[ops.update_track (ops.update_track ops.new_track d0) d2,
            ops.propagate_track (ops.update_track ops.new_track d1)],
           [(a, 0), (b, 1)]⟩ [(d3, c)]
        = some
            ⟨[ops.propagate_track (ops.update_track (ops.update_track ops.new_track d0) d2),
              ops.propagate_track (ops.propagate_track (ops.update_track ops.new_track d1)),
              ops.update_track ops.new_track d3],
             [(a, 0), (b, 1), (c, 2)]⟩ := by
  have hba : b ≠ a := fun e => hab e.symm
  have hca : c ≠ a := fun e => hac e.symm
  have hcb : c ≠ b := fun e => hbc e.symm
  refine ⟨?_, ?_, ?_⟩ <;>
  simp [convert_dets_to_association_sets, convert_loop, add_dets_to_tracks, assign_dets_loop,
    map_find, map_assign, propagate_loop, get_unlabeled_dets, get_association_labels,
    get_association_labels_loop, container.empty, run_steps, hab, hac, hbc, hba, hca, hcb,
    List.modify, List.modifyTailIdx, List.modifyHead]

/-- C4 with payloads `10, 11, 12, 13` and labels `1, 2, 3` on the recording track type. -/
theorem C4_concrete_scenario_witness :
    (1 : Nat) ≠ 2 ∧ (1 : Nat) ≠ 3 ∧ (2 : Nat) ≠ 3
      ∧ convert_dets_to_association_sets (trace_ops Nat)
          [[(10, 1), (11, 2)], [(12, 1)], [(13, 3)]] [] []
        = some
            ([([12], [[track_event.update 10], [track_event.update 11]]),
              ([13], [[track_event.update 10, track_event.update 12],
                      [track_event.update 11, track_event.propagate]])],
             [[0], [-1]])
      ∧ run_steps (trace_ops Nat) [[(10, 1), (11, 2)], [(12, 1)]] container.empty
        = some ⟨[[track_event.update 10, track_event.update 12],
                 [track_event.update 11, track_event.propagate]],
                [(1, 0), (2, 1)]⟩
      ∧ add_dets_to_tracks (trace_ops Nat)
          ⟨[[track_event.update 10, track_event.update 12],
            [track_event.update 11, track_event.propagate]],
           [(1, 0), (2, 1)]⟩ [(13, 3)]
        = some
            ⟨[[track_event.update 10, track_event.update 12, track_event.propagate],
              [track_event.update 11, track_event.propagate, track_event.propagate],
              [track_event.update 13]],
             [(1, 0), (2, 1), (3, 2)]⟩ :=
  ⟨by decide, by decide, by decide,
    C4_concrete_scenario (trace_ops Nat) 10 11 12 13 1 2 3 (by decide) (by decide) (by decide)⟩

/-- C7: in a history where no identity label occurs more than once,
`convert_dets_to_association_sets` returns and every correspondence label emitted is `-1`:
for each step `t` with `1 ≤ t < T` the emitted label vector is `-1` at every detection of
the step, and the track list of the assignment problem of step `t` has as many tracks as
there are detections in steps `0..t-1`. -/
theorem C7_no_repeated_labels {D T L : Type} [DecidableEq L] (ops : track_ops D T)
    (H : List (List (D × L))) (data : List (List D × List T)) (labels : List (List Int))
    (hnd : (labels_of H).Nodup) :
    (∃ out, convert_dets_to_association_sets ops H ([] : List (List D × List T)) [] = some out
        ∧ ∀ lv ∈ out.2, ∀ v ∈ lv, v = -1)
      ∧ ∃ out, convert_dets_to_association_sets ops H data labels = some out
          ∧ ∀ t : Nat, 1 ≤ t → t < H.length →
              out.2[labels.length + (t - 1)]? = some (List.replicate (H.getD t []).length (-1))
                ∧ ∃ tracks : List T,
                    out.1[data.length + (t - 1)]? = some ((H.getD t []).map Prod.fst, tracks)
                    ∧ tracks.length = ((H.take t).flatten).length := by
  have hfresh : fresh_labels_distinct H :=
    fresh_of_nodup_steps H (nodup_step_of_nodup_labels H hnd)
  have hsplit : ∀ t : Nat, t < H.length →
      labels_of H = labels_of (H.take t) ++ ((H.getD t []).map Prod.snd
        ++ labels_of (H.drop (t + 1))) := by
    intro t ht
    have e1 : H = H.take t ++ H.drop t := (List.take_append_drop t H).symm
    have e2 : H.drop t = H.getD t [] :: H.drop (t + 1) := by
      rw [List.drop_eq_getElem_cons ht]
      simp [List.getD, List.getElem?_eq_getElem ht]
    conv_lhs => rw [e1, e2]
    simp [labels_of]
  have hstep : ∀ (t : Nat) (c_t : container T L), t < H.length →
      run_steps ops (H.take t) container.empty = some c_t →
      get_association_labels (H.getD t []) c_t.track_labels
        = List.replicate (H.getD t []).length (-1) := by
    intro t c_t ht hct
    have hn := hnd
    rw [hsplit t ht] at hn
    have hdis := (List.nodup_append.mp hn).2.2
    rw [get_association_labels_eq, List.eq_replicate_iff]
    refine ⟨by simp, ?_⟩
    intro v hv
    obtain ⟨det, hdet, rfl⟩ := List.mem_map.mp hv
    have hnot : det.2 ∉ labels_of (H.take t) := by
      intro hm
      exact hdis hm (List.mem_append_left _ (List.mem_map_of_mem _ hdet))
    simp [label_against, track_labels_run_steps ops _ c_t hct, hnot]
  have hmain : ∀ (data : List (List D × List T)) (labels : List (List Int)),
      ∃ out, convert_dets_to_association_sets ops H data labels = some out
        ∧ ∀ t : Nat, 1 ≤ t → t < H.length →
            out.2[labels.length + (t - 1)]? = some (List.replicate (H.getD t []).length (-1))
              ∧ ∃ tracks : List T,
                  out.1[data.length + (t - 1)]? = some ((H.getD t []).map Prod.fst, tracks)
                  ∧ tracks.length = ((H.take t).flatten).length := by
    intro data labels
    obtain ⟨out, hout⟩ := (convert_isSome_iff ops H data labels).mpr hfresh
    refine ⟨out, hout, ?_⟩
    intro t h1 ht
    obtain ⟨c_t, hct, hdata, hlab⟩ := convert_at ops H data labels out hout t h1 ht
    refine ⟨?_, c_t.tracks, ?_, ?_⟩
    · rw [hlab, hstep t c_t ht hct]
    · rw [hdata, get_unlabeled_dets_eq]
    · have hn := hnd
      rw [hsplit t ht] at hn
      have hpre := (List.nodup_append.mp hn).1
      rw [(run_steps_empty_spec ops (H.take t) c_t hct).2.2.2, distinct_labels_of_nodup _ hpre]
      simp only [labels_of, List.length_map]
  refine ⟨?_, hmain data labels⟩
  obtain ⟨out, hout, hall⟩ := hmain [] []
  refine ⟨out, hout, ?_⟩
  intro lv hlv v hv
  obtain ⟨j, hj⟩ := List.mem_iff_getElem?.mp hlv
  have hlen := (convert_lengths ops H [] [] out hout).2
  have hjlt : j < out.2.length := by
    by_contra hge
    rw [List.getElem?_eq_none (by omega)] at hj
    exact Option.noConfusion hj
  simp only [List.length_nil, Nat.zero_add] at hlen
  have := (hall (j + 1) (by omega) (by omega)).1
  simp only [List.length_nil, Nat.zero_add, Nat.add_sub_cancel] at this
  rw [hj] at this
  rw [Option.some.inj this] at hv
  exact (List.mem_replicate.mp hv).2

/-- C7 at `example_history_fresh`: the label vectors are `[-1]` and `[-1, -1]`, the paired
track lists have 2 and 3 tracks. -/
theorem C7_no_repeated_labels_witness :
    (labels_of example_history_fresh).Nodup
      ∧ (convert_dets_to_association_sets (trace_ops Nat) example_history_fresh [] []).map
          Prod.snd = some [[-1], [-1, -1]]
      ∧ (convert_dets_to_association_sets (trace_ops Nat) example_history_fresh [] []).map
          (fun out => out.1.map (fun problem => problem.2.length)) = some [2, 3]
      ∧ ((∃ out, convert_dets_to_association_sets (trace_ops Nat) example_history_fresh
              ([] : List (List Nat × List (List (track_event Nat)))) [] = some out
            ∧ ∀ lv ∈ out.2, ∀ v ∈ lv, v = -1)
        ∧ ∃ out, convert_dets_to_association_sets (trace_ops Nat) example_history_fresh
              ([] : List (List Nat × List (List (track_event Nat)))) [] = some out
            ∧ ∀ t : Nat, 1 ≤ t → t < example_history_fresh.length →
                out.2[([] : List (List Int)).length + (t - 1)]?
                    = some (List.replicate (example_history_fresh.getD t []).length (-1))
                  ∧ ∃ tracks : List (List (track_event Nat)),
                      out.1[([] : List (List Nat × List (List (track_event Nat)))).length
                          + (t - 1)]?
                        = some ((example_history_fresh.getD t []).map Prod.fst, tracks)
                      ∧ tracks.length = ((example_history_fresh.take t).flatten).length) :=
  ⟨by decide, by decide, by decide,
    C7_no_repeated_labels (trace_ops Nat) example_history_fresh [] [] (by decide)⟩

/-- C8: the assignment problems and label vectors that `train` accumulates are the
concatenation, in history order, of what `convert_dets_to_association_sets` produces for
each history on its own from empty output lists; in particular the number of assignment
problems is the sum of the per-history numbers. The loop of `train` has a result exactly
when `convert_dets_to_association_sets` has one for every history on its own. -/
theorem C8_train_concatenates_histories {D T L : Type} [DecidableEq L] (ops : track_ops D T)
    (samples : List (List (List (D × L)))) :
    train_assignment_sets ops samples
        = (convert_each ops samples).map (fun outs =>
            ((outs.map Prod.fst).flatten, (outs.map Prod.snd).flatten))
      ∧ (∀ outs : List (List (List D × List T) × List (List Int)),
          convert_each ops samples = some outs →
            samples.map (fun s => convert_dets_to_association_sets ops s [] [])
                = outs.map some
              ∧ ∃ out, train_assignment_sets ops samples = some out
                  ∧ out = ((outs.map Prod.fst).flatten, (outs.map Prod.snd).flatten)
                  ∧ out.1.length = (outs.map (fun o => o.1.length)).sum
                  ∧ out.2.length = (outs.map (fun o => o.2.length)).sum)
      ∧ (convert_each (T := T) ops samples = none
          ↔ ∃ s ∈ samples, convert_dets_to_association_sets ops s
              ([] : List (List D × List T)) [] = none) := by
  have h : train_assignment_sets (T := T) ops samples
      = (convert_each ops samples).map (fun outs =>
          ((outs.map Prod.fst).flatten, (outs.map Prod.snd).flatten)) := by
    simp [train_assignment_sets, train_loop_eq]
  refine ⟨h, ?_, convert_each_eq_none_iff ops samples⟩
  intro outs houts
  refine ⟨convert_each_map_some ops samples outs houts, _, ?_, rfl, ?_, ?_⟩
  · rw [h, houts, Option.map_some']
  · simp [List.length_flatten, Function.comp_def]
  · simp [List.length_flatten, Function.comp_def]

/-- C10: in every container reachable from the empty track list and empty label map by
calls of `add_dets_to_tracks` (each call leading to the container it returns), every key
of the label map maps to an index below the length of the track list (both for what a
lookup returns and for every stored entry). -/
theorem C10_label_map_indices_valid {D T L : Type} [DecidableEq L] (ops : track_ops D T)
    (c : container T L) (h : reachable (D := D) ops c) :
    (∀ (key : L) (idx : Nat), map_find c.track_labels key = some idx → idx < c.tracks.length)
      ∧ ∀ entry ∈ c.track_labels, entry.2 < c.tracks.length := by
  have hw := wf_of_reachable ops c h
  refine ⟨fun key idx hf => map_find_lt_of_wf c hw key idx hf, ?_⟩
  intro entry he
  obtain ⟨w1, _, w3⟩ := hw
  rw [w1] at he
  have := mem_number_from 0 _ entry he
  omega

/-- C10 at `example_container_next`, which two calls of `add_dets_to_tracks` reach from
the empty container. -/
theorem C10_label_map_indices_valid_witness :
    reachable (D := Nat) (trace_ops Nat) example_container_next
      ∧ example_container_next.tracks.length = 4
      ∧ ((∀ (key : Nat) (idx : Nat),
            map_find example_container_next.track_labels key = some idx →
            idx < example_container_next.tracks.length)
        ∧ ∀ entry ∈ example_container_next.track_labels,
            entry.2 < example_container_next.tracks.length) :=
  ⟨reachable.step example_container example_container_next example_step
      (reachable.step container.empty example_container [(0, 5), (1, 6)] reachable.empty
        (by decide)) (by decide),
    by decide,
    C10_label_map_indices_valid (trace_ops Nat) example_container_next
      (reachable.step example_container example_container_next example_step
        (reachable.step container.empty example_container [(0, 5), (1, 6)] reachable.empty
          (by decide)) (by decide))⟩

/-- C12: `set_c(C_)` is accepted if and only if `C_ > 0`. For every `C_ <= 0`, and for
every other `C_` that is not `> 0`, the call is ended by the failed check and the whole
object, the stored `C` included, is as before; for every `C_ > 0` the call returns,
`get_c()` then returns `C_`, and `eps`, `verbose`, `num_threads`, `max_cache_size`,
`learn_nonnegative_weights` and `solver` are as before. -/
theorem C12_set_c_accepts_iff_positive {O : Type}
    (self : structural_track_association_trainer O) (C_ : double) :
    ((set_c self C_).1 = outcome.returns () ↔ C_.gt_zero = true)
      ∧ (C_.le_zero = true →
          (set_c self C_).1 = outcome.fatal "C_ must be greater than 0"
            ∧ (set_c self C_).2 = self)
      ∧ (C_.gt_zero = false →
          (set_c self C_).1 = outcome.fatal "C_ must be greater than 0"
            ∧ (set_c self C_).2 = self)
      ∧ (C_.gt_zero = true →
          (set_c self C_).1 = outcome.returns ()
            ∧ get_c (set_c self C_).2 = C_
            ∧ (set_c self C_).2.eps = self.eps
            ∧ (set_c self C_).2.verbose = self.verbose
            ∧ (set_c self C_).2.num_threads = self.num_threads
            ∧ (set_c self C_).2.max_cache_size = self.max_cache_size
            ∧ (set_c self C_).2.learn_nonnegative_weights = self.learn_nonnegative_weights
            ∧ (set_c self C_).2.solver = self.solver) := by
  have hneg : C_.gt_zero = false →
      (set_c self C_).1 = outcome.fatal "C_ must be greater than 0"
        ∧ (set_c self C_).2 = self := by
    intro h
    simp [set_c, DLIB_ASSERT, h]
  have hpos : C_.gt_zero = true →
      set_c self C_ = (outcome.returns (), { self with C := C_ }) := by
    intro h
    simp [set_c, DLIB_ASSERT, h]
  refine ⟨?_, fun h => hneg (double_le_zero_not_gt_zero C_ h), hneg, ?_⟩
  · constructor
    · intro h
      by_contra hc
      have hc' : C_.gt_zero = false := by simpa using hc
      rw [(hneg hc').1] at h
      exact absurd h (by simp)
    · intro h
      rw [hpos h]
  · intro h
    rw [hpos h]
    simp [get_c]

/-- C13: `set_epsilon(eps_)` is accepted if and only if `eps_ > 0`. For every `eps_ <= 0`,
and for every other `eps_` that is not `> 0`, the call is ended by the failed check and the
whole object is as before; for every `eps_ > 0` the call returns, `get_epsilon()` then
returns `eps_`, and `C`, `verbose`, `num_threads`, `max_cache_size`,
`learn_nonnegative_weights` and `solver` are as before. -/
theorem C13_set_epsilon_accepts_iff_positive {O : Type}
    (self : structural_track_association_trainer O) (eps_ : double) :
    ((set_epsilon self eps_).1 = outcome.returns () ↔ eps_.gt_zero = true)
      ∧ (eps_.le_zero = true →
          (set_epsilon self eps_).1 = outcome.fatal "eps_ must be greater than 0"
            ∧ (set_epsilon self eps_).2 = self)
      ∧ (eps_.gt_zero = false →
          (set_epsilon self eps_).1 = outcome.fatal "eps_ must be greater than 0"
            ∧ (set_epsilon self eps_).2 = self)
      ∧ (eps_.gt_zero = true →
          (set_epsilon self eps_).1 = outcome.returns ()
            ∧ get_epsilon (set_epsilon self eps_).2 = eps_
            ∧ (set_epsilon self eps_).2.C = self.C
            ∧ (set_epsilon self eps_).2.verbose = self.verbose
            ∧ (set_epsilon self eps_).2.num_threads = self.num_threads
            ∧ (set_epsilon self eps_).2.max_cache_size = self.max_cache_size
            ∧ (set_epsilon self eps_).2.learn_nonnegative_weights
                = self.learn_nonnegative_weights
            ∧ (set_epsilon self eps_).2.solver = self.solver) := by
  have hneg : eps_.gt_zero = false →
      (set_epsilon self eps_).1 = outcome.fatal "eps_ must be greater than 0"
        ∧ (set_epsilon self eps_).2 = self := by
    intro h
    simp [set_epsilon, DLIB_ASSERT, h]
  have hpos : eps_.gt_zero = true →
      set_epsilon self eps_ = (outcome.returns (), { self with eps := eps_ }) := by
    intro h
    simp [set_epsilon, DLIB_ASSERT, h]
  refine ⟨?_, fun h => hneg (double_le_zero_not_gt_zero eps_ h), hneg, ?_⟩
  · constructor
    · intro h
      by_contra hc
      have hc' : eps_.gt_zero = false := by simpa using hc
      rw [(hneg hc').1] at h
      exact absurd h (by simp)
    · intro h
      rw [hpos h]
  · intro h
    rw [hpos h]
    simp [get_epsilon]

/-- C14, evaluated on one history of `2 ^ 32` empty time steps followed by a time step
with one detection: not every time-step detection set is empty, yet `find_num_dims` does
not return the feature length `2` of that detection: the 32-bit counter `j` of the inner
loop wraps from `2 ^ 32 - 1` to `0` before it reaches the detection, and the loop never
ends. -/
theorem C14_find_num_dims_counter_wraps :
    [((7 : Nat), (1 : Nat))] ∈ (List.replicate (2 ^ 32) [] ++ [[((7 : Nat), (1 : Nat))]])
      ∧ find_num_dims (trace_ops Nat) (fun _ _ => [(0 : Nat), 0])
          [List.replicate (2 ^ 32) [] ++ [[((7 : Nat), (1 : Nat))]]]
        = outcome.hangs
      ∧ find_num_dims (trace_ops Nat) (fun _ _ => [(0 : Nat), 0])
          [List.replicate (2 ^ 32) [] ++ [[((7 : Nat), (1 : Nat))]]]
        ≠ outcome.returns 2 := by
  have h := find_num_dims_hangs (trace_ops Nat) (fun _ _ => [(0 : Nat), 0])
    [[((7 : Nat), (1 : Nat))]] []
  refine ⟨List.mem_append_right _ (List.mem_singleton_self _), h, ?_⟩
  rw [h]
  exact fun e => outcome.noConfusion e

/-- C15, refuted at a freshly constructed trainer: the tolerance that `get_epsilon` reports
is the value of the literal `0.1`, the `double` `3602879701896397 / 2 ^ 55`, and this is
not one tenth. -/
theorem C15_tolerance_counterexample :
    get_epsilon (structural_track_association_trainer.construct
        (⟨double.nan, (), double.nan, true, 0, 0, true⟩ :
          structural_track_association_trainer Unit))
        = double.finite (3602879701896397 / 2 ^ 55)
      ∧ get_epsilon (structural_track_association_trainer.construct
          (⟨double.nan, (), double.nan, true, 0, 0, true⟩ :
            structural_track_association_trainer Unit))
        ≠ double.finite (1 / 10) := by
  have h : get_epsilon (structural_track_association_trainer.construct
      (⟨double.nan, (), double.nan, true, 0, 0, true⟩ :
        structural_track_association_trainer Unit)) = double.finite double_0_1 := rfl
  rw [h]
  constructor
  · exact congrArg double.finite (by unfold double_0_1; norm_num)
  · intro e
    exact double_0_1_nearest.2.2.2.2 (double.finite.inj e)

/-- C15 as amended: a freshly constructed trainer reports regularization constant 100
through `get_c`, max cache size 5 through `get_max_cache_size`, thread count 2 through
`get_num_threads` and the nonnegative-weights flag off through
`learns_nonnegative_weights`; its verbosity is off and its solver is the
default-constructed one. The tolerance it reports through `get_epsilon` is the `double`
nearest to one tenth, `3602879701896397 / 2 ^ 55`, which differs from one tenth by less
than `2 ^ -57` and is not one tenth. -/
theorem C15_constructor_defaults {O : Type} (raw : structural_track_association_trainer O) :
    get_c (structural_track_association_trainer.construct raw) = double.finite 100
      ∧ get_epsilon (structural_track_association_trainer.construct raw)
        = double.finite double_0_1
      ∧ double_0_1 = 3602879701896397 / 2 ^ 55
      ∧ |double_0_1 - 1 / 10| < 1 / 2 ^ 57
      ∧ double_0_1 ≠ 1 / 10
      ∧ get_max_cache_size (structural_track_association_trainer.construct raw) = 5
      ∧ get_num_threads (structural_track_association_trainer.construct raw) = 2
      ∧ learns_nonnegative_weights (structural_track_association_trainer.construct raw) = false
      ∧ (structural_track_association_trainer.construct raw).verbose = false
      ∧ get_oca (structural_track_association_trainer.construct raw) = raw.solver := by
  refine ⟨rfl, rfl, ?_, double_0_1_nearest.2.2.2.1, double_0_1_nearest.2.2.2.2, rfl, rfl, rfl,
    rfl, rfl⟩
  unfold double_0_1
  norm_num

/-- C16: for every input that passes the input check of `train` and on which
`find_num_dims` returns `n`, `train` constructs the feature extractor and configures the
external trainer, the dimensionality it passes to the feature extractor is `n`, and the
number of non-negativity dimensions it passes is `n` when the nonnegative-weights flag is
on and `0` when it is off; the flag is the value last given to
`set_learns_nonnegative_weights`. -/
theorem C16_nonnegative_dimensions {D T L F O : Type} [DecidableEq L] (ops : track_ops D T)
    (feats : T → D → List F)
    (is_track_association_problem : List (List (List (D × L))) → Bool)
    (self : structural_track_association_trainer O) (samples : List (List (List (D × L))))
    (n : Nat) (hcheck : is_track_association_problem samples = true)
    (hdims : find_num_dims ops feats samples = outcome.returns n) :
    (∃ call : trainer_call D T O,
        train ops feats is_track_association_problem self samples = outcome.returns call
          ∧ call.num_dims = n
          ∧ call.num_nonnegative = if learns_nonnegative_weights self then n else 0)
      ∧ ∀ value : Bool, ∃ call : trainer_call D T O,
          train ops feats is_track_association_problem
              (set_learns_nonnegative_weights self value) samples = outcome.returns call
            ∧ call.num_dims = n
            ∧ call.num_nonnegative = if value then n else 0 := by
  have ht : ∀ trainer : structural_track_association_trainer O,
      train ops feats is_track_association_problem trainer samples
        = outcome.returns
            { num_dims := n
              num_nonnegative := if trainer.learn_nonnegative_weights then n else 0
              verbose := trainer.verbose
              C := trainer.C
              eps := trainer.eps
              max_cache_size := trainer.max_cache_size
              num_threads := trainer.num_threads
              solver := trainer.solver
              training_set := train_assignment_sets ops samples } := by
    intro trainer
    simp only [train, DLIB_ASSERT, hcheck, if_true, outcome.and_then, hdims]
  exact ⟨⟨_, ht self, rfl, rfl⟩, fun value =>
    ⟨_, ht (set_learns_nonnegative_weights self value), rfl, rfl⟩⟩

/-- C16 on two histories whose first detection has payload `3`, with feature vectors as
long as the payload: dimensionality 3, and 3 or 0 non-negativity dimensions. -/
theorem C16_nonnegative_dimensions_witness :
    find_num_dims (trace_ops Nat) (fun _ d => List.replicate d ()) [[[], [(3, 1)]], [[(4, 2)]]]
        = outcome.returns 3
      ∧ ((∃ call : trainer_call Nat (List (track_event Nat)) Unit,
            train (trace_ops Nat) (fun _ d => List.replicate d ()) (fun _ => true)
                (structural_track_association_trainer.construct
                  ⟨double.nan, (), double.nan, true, 0, 0, true⟩)
                [[[], [(3, 1)]], [[(4, 2)]]] = outcome.returns call
              ∧ call.num_dims = 3
              ∧ call.num_nonnegative
                = if learns_nonnegative_weights
                    (structural_track_association_trainer.construct
                      (⟨double.nan, (), double.nan, true, 0, 0, true⟩ :
                        structural_track_association_trainer Unit)) then 3 else 0)
        ∧ ∀ value : Bool, ∃ call : trainer_call Nat (List (track_event Nat)) Unit,
            train (trace_ops Nat) (fun _ d => List.replicate d ()) (fun _ => true)
                (set_learns_nonnegative_weights
                  (structural_track_association_trainer.construct
                    ⟨double.nan, (), double.nan, true, 0, 0, true⟩) value)
                [[[], [(3, 1)]], [[(4, 2)]]] = outcome.returns call
              ∧ call.num_dims = 3
              ∧ call.num_nonnegative = if value then 3 else 0) :=
  ⟨by decide,
    C16_nonnegative_dimensions (trace_ops Nat) (fun _ d => List.replicate d ()) (fun _ => true)
      (structural_track_association_trainer.construct
        ⟨double.nan, (), double.nan, true, 0, 0, true⟩)
      [[[], [(3, 1)]], [[(4, 2)]]] 3 rfl (by decide)⟩

/-- C17, refuted at the first time step of a history: from the empty container, which
has no track, the time step `[(d0, a), (d1, a)]` makes `add_dets_to_tracks` mark index `0`
as touched at the second detection. -/
theorem C17_touched_index_counterexample :
    reachable (D := Nat) (trace_ops Nat)
        (container.empty : container (List (track_event Nat)) Nat)
      ∧ add_dets_touched (trace_ops Nat)
          (container.empty : container (List (track_event Nat)) Nat) [(0, 1), (1, 1)] = [0]
      ∧ (container.empty : container (List (track_event Nat)) Nat).tracks.length = 0
      ∧ ¬ (∀ idx ∈ add_dets_touched (trace_ops Nat)
              (container.empty : container (List (track_event Nat)) Nat) [(0, 1), (1, 1)],
            idx < (container.empty : container (List (track_event Nat)) Nat).tracks.length) :=
  ⟨reachable.empty, by decide, by decide, by decide⟩

/-- C17 as amended: for every container reachable from the empty one and every time-step
detection set, every track index that `add_dets_to_tracks` marks as touched is below the
number of tracks that existed when the step began, so that every write to `updated_track`
is in bounds, exactly when no identity label that is not yet a key of the label map occurs
more than once in the detection set; this is so in particular when the labels of the set
are pairwise distinct. -/
theorem C17_touched_indices_in_bounds_iff {D T L : Type} [DecidableEq L]
    (ops : track_ops D T) (c : container T L) (dets : List (D × L))
    (h : reachable ops c) :
    ((∀ idx ∈ add_dets_touched ops c dets, idx < c.tracks.length)
        ↔ ((dets.map Prod.snd).filter
            (fun l => decide (l ∉ map_keys c.track_labels))).Nodup)
      ∧ ((dets.map Prod.snd).Nodup →
          ∀ idx ∈ add_dets_touched ops c dets, idx < c.tracks.length) := by
  have hiff := add_dets_touched_lt_iff ops c dets (wf_of_reachable ops c h)
  exact ⟨hiff, fun hn => hiff.mpr (hn.filter _)⟩

/-- C17 as amended, at `example_container` and `example_step`: label `5`, already a key,
occurs twice and index `0` is touched twice; the two tracks of the container suffice. -/
theorem C17_touched_indices_in_bounds_iff_witness :
    reachable (D := Nat) (trace_ops Nat) example_container
      ∧ add_dets_touched (trace_ops Nat) example_container example_step = [0, 0]
      ∧ example_container.tracks.length = 2
      ∧ (((∀ idx ∈ add_dets_touched (trace_ops Nat) example_container example_step,
              idx < example_container.tracks.length)
            ↔ ((example_step.map Prod.snd).filter
                (fun l => decide (l ∉ map_keys example_container.track_labels))).Nodup)
        ∧ ((example_step.map Prod.snd).Nodup →
            ∀ idx ∈ add_dets_touched (trace_ops Nat) example_container example_step,
              idx < example_container.tracks.length)) :=
  ⟨reachable.step container.empty example_container [(0, 5), (1, 6)] reachable.empty
      (by decide),
    by decide, by decide,
    C17_touched_indices_in_bounds_iff (trace_ops Nat) example_container example_step
      (reachable.step container.empty example_container [(0, 5), (1, 6)] reachable.empty
        (by decide))⟩

/-- C18: for every track history in which the identity labels within each time step are
pairwise distinct: every index at which `convert_dets_to_association_sets` reads
`det_history` is below its size; and at every time step the earlier steps have left a
container, `add_dets_to_tracks` returns from it on the step, every `track_idx` that it
uses in `tracks[track_idx]` and `updated_track[track_idx]` is below the number of tracks at
the start of the step, `updated_track` has that many flags, and every index of the
propagate loop is a position of the track list as the first loop has left it. -/
theorem C18_indexed_accesses_in_bounds {D T L : Type} [DecidableEq L] (ops : track_ops D T)
    (H : List (List (D × L))) (hd : ∀ dets ∈ H, (dets.map Prod.snd).Nodup) :
    (∀ i ∈ det_history_reads H, i < H.length)
      ∧ ∀ (t : Nat) (dets : List (D × L)), H[t]? = some dets →
          ∃ start : container T L,
            run_steps ops (H.take t) container.empty = some start
              ∧ (∃ next, add_dets_to_tracks ops start dets = some next)
              ∧ (∀ idx ∈ add_dets_touched ops start dets, idx < start.tracks.length)
              ∧ (propagate_indices ops start dets).length = start.tracks.length
              ∧ ∀ i ∈ propagate_indices ops start dets,
                  i < (tracks_after_first_loop ops start dets).length := by
  refine ⟨fun i hi => mem_det_history_reads H i hi, ?_⟩
  intro t dets ht
  obtain ⟨c, hr⟩ := (run_steps_isSome_iff ops (T := T) H).mpr (fresh_of_nodup_steps H hd)
  obtain ⟨start, hstart, _⟩ := run_steps_take ops H container.empty c hr t
  have hw : start.wf := (run_steps_empty_spec ops (H.take t) start hstart).1
  have hmem : dets ∈ H := by
    obtain ⟨hlt, hget⟩ := List.getElem?_eq_some_iff.mp ht
    exact hget ▸ List.getElem_mem hlt
  have hok : ((dets.map Prod.snd).filter
      (fun l => decide (l ∉ map_keys start.track_labels))).Nodup := (hd dets hmem).filter _
  have hp := propagate_indices_lt ops start dets hw hok
  exact ⟨start, hstart, (add_dets_to_tracks_isSome_iff ops start dets hw).mpr hok,
    (add_dets_touched_lt_iff ops start dets hw).mpr hok, hp.1, hp.2⟩

/-- C18 at `example_history`, whose time steps have pairwise distinct labels. -/
theorem C18_indexed_accesses_in_bounds_witness :
    (∀ dets ∈ example_history, (dets.map Prod.snd).Nodup)
      ∧ det_history_reads example_history = [0, 1, 2]
      ∧ run_steps (trace_ops Nat) (example_history.take 1) container.empty
        = some example_container
      ∧ add_dets_touched (trace_ops Nat) example_container [(2, 5), (4, 8), (5, 6)] = [0, 1]
      ∧ ((∀ i ∈ det_history_reads example_history, i < example_history.length)
        ∧ ∀ (t : Nat) (dets : List (Nat × Nat)), example_history[t]? = some dets →
            ∃ start : container (List (track_event Nat)) Nat,
              run_steps (trace_ops Nat) (example_history.take t) container.empty = some start
                ∧ (∃ next, add_dets_to_tracks (trace_ops Nat) start dets = some next)
                ∧ (∀ idx ∈ add_dets_touched (trace_ops Nat) start dets,
                    idx < start.tracks.length)
                ∧ (propagate_indices (trace_ops Nat) start dets).length = start.tracks.length
                ∧ ∀ i ∈ propagate_indices (trace_ops Nat) start dets,
                    i < (tracks_after_first_loop (trace_ops Nat) start dets).length) :=
  ⟨by decide, by decide, by decide, by decide,
    C18_indexed_accesses_in_bounds (trace_ops Nat) example_history (by decide)⟩

/-- C19: in every container reachable from the empty track list and empty label map by
calls of `add_dets_to_tracks` (each call leading to the container it returns), the label
map is a bijection between its keys and the track indices: two identity labels that map to
the same index are equal, no key is stored twice, the number of keys is the length of the
track list, and every track index belongs to exactly one identity label. -/
theorem C19_label_map_bijection {D T L : Type} [DecidableEq L] (ops : track_ops D T)
    (c : container T L) (h : reachable ops c) :
    (∀ (key1 key2 : L) (idx : Nat), map_find c.track_labels key1 = some idx →
        map_find c.track_labels key2 = some idx → key1 = key2)
      ∧ (map_keys c.track_labels).Nodup
      ∧ (map_keys c.track_labels).length = c.tracks.length
      ∧ (map_keys c.track_labels).toFinset.card = c.tracks.length
      ∧ (∀ key : L,
          key ∈ map_keys c.track_labels ↔ ∃ idx, map_find c.track_labels key = some idx)
      ∧ ∀ idx : Nat, idx < c.tracks.length →
          ∃ key : L, map_find c.track_labels key = some idx
            ∧ ∀ other : L, map_find c.track_labels other = some idx → other = key := by
  have hw := wf_of_reachable ops c h
  have hinj : ∀ (key1 key2 : L) (idx : Nat), map_find c.track_labels key1 = some idx →
      map_find c.track_labels key2 = some idx → key1 = key2 := by
    intro key1 key2 idx h1 h2
    obtain ⟨m1, i1⟩ := map_find_eq_some_of_wf c hw key1 idx h1
    obtain ⟨_, i2⟩ := map_find_eq_some_of_wf c hw key2 idx h2
    exact (List.indexOf_inj m1 (by
      rw [← List.indexOf_lt_length, i2, ← i1]; exact List.indexOf_lt_length.mpr m1)).mp
        (i1.trans i2.symm)
  refine ⟨hinj, hw.2.1, hw.2.2.symm, ?_, ?_, ?_⟩
  · rw [List.toFinset_card_of_nodup hw.2.1]; exact hw.2.2.symm
  · intro key
    constructor
    · intro hm
      obtain ⟨i, hi, hget⟩ := List.getElem_of_mem hm
      exact ⟨i, map_find_of_getElem? c hw i key (by
        rw [List.getElem?_eq_getElem hi, hget])⟩
    · rintro ⟨idx, hf⟩
      exact (map_find_eq_some_of_wf c hw key idx hf).1
  · intro idx hlt
    have hlt' : idx < (map_keys c.track_labels).length := by rw [← hw.2.2]; exact hlt
    refine ⟨(map_keys c.track_labels)[idx], map_find_of_getElem? c hw idx _
      (List.getElem?_eq_getElem hlt'), ?_⟩
    intro other ho
    exact hinj other _ idx ho (map_find_of_getElem? c hw idx _ (List.getElem?_eq_getElem hlt'))

/-- C19 at `example_container_next`, which two calls of `add_dets_to_tracks` reach from
the empty container: four keys `5, 6, 7, 8` for four tracks. -/
theorem C19_label_map_bijection_witness :
    reachable (D := Nat) (trace_ops Nat) example_container_next
      ∧ map_keys example_container_next.track_labels = [5, 6, 7, 8]
      ∧ example_container_next.tracks.length = 4
      ∧ ((∀ (key1 key2 : Nat) (idx : Nat),
            map_find example_container_next.track_labels key1 = some idx →
            map_find example_container_next.track_labels key2 = some idx → key1 = key2)
        ∧ (map_keys example_container_next.track_labels).Nodup
        ∧ (map_keys example_container_next.track_labels).length
          = example_container_next.tracks.length
        ∧ (map_keys example_container_next.track_labels).toFinset.card
          = example_container_next.tracks.length
        ∧ (∀ key : Nat,
            key ∈ map_keys example_container_next.track_labels
              ↔ ∃ idx, map_find example_container_next.track_labels key = some idx)
        ∧ ∀ idx : Nat, idx < example_container_next.tracks.length →
            ∃ key : Nat, map_find example_container_next.track_labels key = some idx
              ∧ ∀ other : Nat,
                  map_find example_container_next.track_labels other = some idx →
                    other = key) :=
  ⟨reachable.step example_container example_container_next example_step
      (reachable.step container.empty example_container [(0, 5), (1, 6)] reachable.empty
        (by decide)) (by decide),
    by decide, by decide,
    C19_label_map_bijection (trace_ops Nat) example_container_next
      (reachable.step example_container example_container_next example_step
        (reachable.step container.empty example_container [(0, 5), (1, 6)] reachable.empty
          (by decide)) (by decide))⟩

end dlib
